import Mathlib

/-!
Verification development for the analyze_ref_gc reference-genome GC-analysis
tool.  The Rust sources under src/ are shallowly embedded below: machine
integers become Nat with explicit masks where overflow matters, fallible code
returns Option or Except, and stateful code is explicit state passing.
Definitions keep the source names where Lean allows it.
-/

namespace ARGC

/-! ## Base alphabet (src/reader.rs lines 13-40)

Rust: repr(u8) enum with A=0, C=1, T=2, G=3, N=4, Other=5; Other is the
Default variant.  is_gap tests bit 2 of the discriminant. -/

inductive Base where
  | A
  | C
  | T
  | G
  | N
  | Other
deriving DecidableEq, Repr, Inhabited

/-- Numeric discriminant of the repr(u8) enum (the Rust cast b as u8). -/
def Base.val : Base → Nat
  | .A => 0
  | .C => 1
  | .T => 2
  | .G => 3
  | .N => 4
  | .Other => 5

/-- Base::from_u8: ASCII A/a, C/c, G/g, T/t, N/n as themselves, else Other. -/
def Base.from_u8 (c : Nat) : Base :=
  if c = 65 ∨ c = 97 then .A
  else if c = 67 ∨ c = 99 then .C
  else if c = 71 ∨ c = 103 then .G
  else if c = 84 ∨ c = 116 then .T
  else if c = 78 ∨ c = 110 then .N
  else .Other

/-- Base::is_gap: ((self as usize) & 4) == 4. -/
def Base.is_gap (b : Base) : Bool :=
  (b.val &&& 4) = 4

theorem Base.is_gap_iff (b : Base) : b.is_gap = true ↔ b = .N ∨ b = .Other := by
  cases b <;> decide

/-! ## KMCV constants

src/kmers.rs line 13 defines the k-mer length constant used to key the
k-mer table and written into the KMCV header. -/

/-- pub const KMER_LENGTH: usize = 16 (src/kmers.rs line 13). -/
def KMER_LENGTH : Nat := 16

/-- Modelled from the spec: MAX_HITS = 8, the KmerVec capacity.  The constant
is imported by src/kmcv/output.rs from the kmers module but the revision of
src/kmers.rs present in the tree does not define it; the spec fixes it to 8. -/
def MAX_HITS : Nat := 8

/-! ## KMCV header (src/kmcv/output.rs lines 15-57)

u32_to_buf and u64_to_buf write little-endian bytes; KmcvHeader::new fills a
52-byte buffer.  Bytes are modelled as Nat values below 256. -/

def u32_to_buf (x : Nat) : List Nat :=
  [x % 256, x / 256 % 256, x / 2 ^ 16 % 256, x / 2 ^ 24 % 256]

def u64_to_buf (x : Nat) : List Nat :=
  [x % 256, x / 256 % 256, x / 2 ^ 16 % 256, x / 2 ^ 24 % 256,
   x / 2 ^ 32 % 256, x / 2 ^ 40 % 256, x / 2 ^ 48 % 256, x / 2 ^ 56 % 256]

def MAJOR_VERSION : Nat := 2

def MINOR_VERSION : Nat := 0

/-- KmcvHeader::new, as the 52-byte buffer it builds.  The KmerWork statistics
(mapped, on_target, redundant, total_hits) and the region counts are passed in
as plain numbers since the header only copies them. -/
def kmcvHeader (n_contigs n_targets mapped on_target redundant total_hits rnd_id : Nat) :
    List Nat :=
  [75, 77, 67, 86, MAJOR_VERSION % 256, MINOR_VERSION % 256,
   KMER_LENGTH % 256, MAX_HITS % 256]
  ++ u32_to_buf rnd_id ++ u32_to_buf n_contigs ++ u32_to_buf n_targets
  ++ u64_to_buf mapped ++ u64_to_buf on_target ++ u64_to_buf redundant
  ++ u64_to_buf total_hits

/-! ## K-mer record classification (src/kmcv/output.rs lines 94-137)

KmerVec is a fixed vector of MAX_HITS u32 slots.  The type itself comes from
the kmers module and is missing from the revision in the tree; modelled from
the spec as a list of 8 unsigned 32-bit slot values.  The classification and
the type code below are translated from src/kmcv/output.rs. -/

inductive KmerType where
  | Unmapped
  | UniqueOnTarget
  | UniqueOffTarget
  | LowMultiMap (n : Nat)
  | HighMultiMap
deriving DecidableEq, Repr

/-- KmerType::from_kmer_vec.  v is the KmerVec as a list of slot values; the
Rust code indexes v[0] and v[1] and scans v[2..] for the first zero slot. -/
def KmerType.from_kmer_vec (v : List Nat) : KmerType :=
  if v.getD 0 0 = 0 then .Unmapped
  else if (v.getD 0 0) &&& 0x80000000 ≠ 0 then .HighMultiMap
  else if v.getD 1 0 = 0 then
    if v.getD 0 0 = 1 then .UniqueOffTarget else .UniqueOnTarget
  else
    match (v.drop 2).findIdx? (fun x => x = 0) with
    | some i => .LowMultiMap (i + 2)
    | none => .LowMultiMap v.length

/-- KmerType::type_code. -/
def KmerType.type_code : KmerType → Nat
  | .Unmapped => 15
  | .UniqueOnTarget => 1
  | .LowMultiMap x => x - 1
  | .UniqueOffTarget => 9
  | .HighMultiMap => 8

/-! ## Variable-width skip encoding (src/kmcv/output.rs lines 139-167)

write_type_skip_nhits emits one type/skip byte, optionally followed by a one,
two or four byte extension, little endian.  The byte list it writes: -/

/-- write_type_skip_nhits, as the list of bytes written for a skip value and a
type code (skip is a u32, so below 2 to the 32). -/
def write_type_skip_nhits (skip tcode : Nat) : List Nat :=
  if skip < 0x0f then
    [((skip % 256) <<< 4) ||| tcode]
  else
    let s1 := skip - 0x0f
    if s1 < 0xff then
      [0xf0 ||| tcode, s1]
    else
      let s2 := s1 - 0xff
      if s2 < 0xffff then
        [0xf0 ||| tcode, 0xff, s2 % 256, s2 / 256]
      else
        let s3 := s2 - 0xffff
        [0xf0 ||| tcode, 0xff, 255, 255,
         s3 % 256, s3 / 256 % 256, s3 / 2 ^ 16 % 256, s3 / 2 ^ 24 % 256]

/-- Reference decoder for the type/skip encoding described in src/kmcv.rs:
returns the type code, the skip count and the unread remainder. -/
def read_type_skip (bs : List Nat) : Option (Nat × Nat × List Nat) :=
  match bs with
  | [] => none
  | b0 :: rest =>
    let tcode := b0 % 16
    let nib := b0 / 16
    if nib < 15 then some (tcode, nib, rest)
    else
      match rest with
      | [] => none
      | b1 :: rest1 =>
        if b1 < 255 then some (tcode, 15 + b1, rest1)
        else
          match rest1 with
          | b2 :: b3 :: rest2 =>
            let v := b2 + 256 * b3
            if v < 65535 then some (tcode, 15 + 255 + v, rest2)
            else
              match rest2 with
              | b4 :: b5 :: b6 :: b7 :: rest3 =>
                some (tcode, 15 + 255 + 65535 +
                  (b4 + 256 * b5 + 2 ^ 16 * b6 + 2 ^ 24 * b7), rest3)
              | _ => none
          | _ => none

theorem shiftLeft_four_lor (s t : Nat) (ht : t < 16) :
    (s <<< 4) ||| t = 16 * s + t := by
  have h := Nat.mul_add_lt_is_or (i := 4) (b := t) (by omega) s
  rw [Nat.shiftLeft_eq, Nat.mul_comm, ← h]

/-! ## K-mer index (src/kmers.rs lines 15-107)

KmerWork stores a HashMap from the packed k-mer to a value T holding
(region << 1) | non_unique_bit, plus per-target unique counts and three
global counters.  The HashMap is modelled as an association list (newest
entry first, which matches insert-if-absent semantics); T is modelled as Nat,
which is faithful because the assert on max_region keeps every shifted value
inside the machine width for any slot type T.  Asserts and out-of-bounds Vec
indexing are panics, modelled by returning none. -/

structure KmerWork where
  kmers : List (Nat × Nat)
  target_unique_count : List Nat
  max_region : Nat
  on_target_unique : Nat
  off_target_unique : Nat
  non_unique : Nat
deriving DecidableEq, Repr

/-- KmerWork::new for a slot type of sz bytes (sz = size_of T). -/
def KmerWork.new (n_targets sz : Nat) : KmerWork :=
  { kmers := []
    target_unique_count := List.replicate n_targets 0
    max_region := (1 <<< ((sz <<< 3) - 1)) - 1
    on_target_unique := 0
    off_target_unique := 0
    non_unique := 0 }

/-- Replace the value stored under a key of an association list, leaving the
list unchanged when the key is absent (the get_mut branch is only taken when
the key is present). -/
def updateAssoc : List (Nat × Nat) → Nat → Nat → List (Nat × Nat)
  | [], _, _ => []
  | (k, v) :: t, key, val =>
    if k = key then (k, val) :: t else (k, v) :: updateAssoc t key val

/-- KmerWork::add_kmer.  r is the collapsed region value computed by the Rust
code as region.map(into).unwrap_or(0): r = 0 means off target and r ≥ 1 is a
NonZeroU32 region index. -/
def KmerWork.add_kmer (s : KmerWork) (kmer r : Nat) : Option KmerWork :=
  if r > s.max_region then none
  else
    match s.kmers.lookup kmer with
    | some p =>
      if p &&& 1 = 0 then
        if p ≠ 0 then
          if s.on_target_unique = 0 then none
          else
            let ix := p / 2 - 1
            if hix : ix < s.target_unique_count.length then
              if s.target_unique_count.get ⟨ix, hix⟩ = 0 then none
              else
                some { s with
                  kmers := updateAssoc s.kmers kmer (p ||| 1)
                  target_unique_count := s.target_unique_count.set ix
                    (s.target_unique_count.get ⟨ix, hix⟩ - 1)
                  on_target_unique := s.on_target_unique - 1
                  non_unique := s.non_unique + 1 }
            else none
        else
          if s.off_target_unique = 0 then none
          else
            some { s with
              kmers := updateAssoc s.kmers kmer (p ||| 1)
              off_target_unique := s.off_target_unique - 1
              non_unique := s.non_unique + 1 }
      else some s
    | none =>
      if r = 0 then
        some { s with
          kmers := (kmer, r <<< 1) :: s.kmers
          off_target_unique := s.off_target_unique + 1 }
      else
        if hix : r - 1 < s.target_unique_count.length then
          some { s with
            kmers := (kmer, r <<< 1) :: s.kmers
            on_target_unique := s.on_target_unique + 1
            target_unique_count := s.target_unique_count.set (r - 1)
              (s.target_unique_count.get ⟨r - 1, hix⟩ + 1) }
        else none

/-! ## K-mer builder (src/kmers.rs lines 159-256) -/

/-- decode_base: (base & 3, ((base & 4) >> 2) xor 1), so x is the 2-bit code
and the second component is 1 exactly on A, C, G, T. -/
def decode_base (b : Base) : Nat × Nat :=
  (b.val &&& 3, ((b.val &&& 4) >>> 2) ^^^ 1)

/-- REV_SHIFT = (KMER_LENGTH - 1) << 1. -/
def REV_SHIFT : Nat := (KMER_LENGTH - 1) <<< 1

structure KmerBuilder where
  target_vec : List (Option Nat)
  kmer : Nat
  rev_kmer : Nat
  valid : Nat
  mask : Nat
  valid_mask : Nat
deriving DecidableEq, Repr

/-- KmerBuilder::new: KmerType is u32 so nb = 32; the masks are computed by
shifting the all-ones word right as in the source. -/
def KmerBuilder.new : KmerBuilder :=
  { target_vec := List.replicate KMER_LENGTH none
    kmer := 0
    rev_kmer := 0
    valid := 0
    mask := (2 ^ 32 - 1) >>> (32 - KMER_LENGTH - KMER_LENGTH)
    valid_mask := (2 ^ 32 - 1) >>> (32 - KMER_LENGTH) }

/-- KmerBuilder::add_base.  The pop_front unwrap in the source can only panic
on an empty deque, which new and clear rule out (the deque always holds
KMER_LENGTH entries), so the transition is total here. -/
def KmerBuilder.add_base (s : KmerBuilder) (base : Base)
    (region_idx : Option Nat) : KmerBuilder :=
  let x := (decode_base base).1
  let valid := (decode_base base).2
  let rev_x := (x + 2) &&& 3
  { s with
    target_vec := s.target_vec.tail ++ [region_idx]
    kmer := ((s.kmer <<< 2) &&& s.mask) ||| x
    rev_kmer := (s.rev_kmer >>> 2) ||| (rev_x <<< REV_SHIFT)
    valid := ((s.valid <<< 1) &&& s.valid_mask) ||| valid }

/-- KmerBuilder::kmers: the pair is returned only when every one of the last
KMER_LENGTH bases was a valid (A, C, G, T) base. -/
def KmerBuilder.kmers (s : KmerBuilder) : Option (List Nat) :=
  if s.valid = s.valid_mask then some [s.kmer, s.rev_kmer] else none

/-- The update step exactly as the specification states it, written
independently from the source function: x = base & 3, the reverse word gets
((x + 2) & 3) shifted by 2 (k - 1), and the validity bit is 1 for non-gap. -/
def add_base_spec (s : KmerBuilder) (base : Base)
    (region_idx : Option Nat) : KmerBuilder :=
  let x := base.val &&& 3
  let v : Nat := if base.is_gap then 0 else 1
  { s with
    target_vec := s.target_vec.tail ++ [region_idx]
    kmer := ((s.kmer <<< 2) &&& s.mask) ||| x
    rev_kmer := (s.rev_kmer >>> 2) |||
      ((((base.val &&& 3) + 2) &&& 3) <<< (2 * (KMER_LENGTH - 1)))
    valid := ((s.valid <<< 1) &&& s.valid_mask) ||| v }

/-- Folding a list of (base, region tag) pairs into a fresh builder. -/
def build_from (l : List (Base × Option Nat)) : KmerBuilder :=
  l.foldl (fun s p => s.add_base p.1 p.2) KmerBuilder.new

/-! ## Region catalogue (src/regions/regions.rs)

Region is (start, size, idx) with idx a NonZeroU32, modelled as a Nat (the
normalization below only ever stores values ix + 1 ≥ 1).  end() is start +
size, named endPos here because end is a Lean keyword.  The Ord instance
compares start, then size. -/

structure Region where
  start : Nat
  size : Nat
  idx : Nat
deriving DecidableEq, Repr, Inhabited

/-- Region::end. -/
def Region.endPos (r : Region) : Nat := r.start + r.size

/-- The Ord comparison of Region (start, then size), as the Bool total
preorder used for sorting. -/
def Region.le (a b : Region) : Bool :=
  decide (a.start < b.start ∨ (a.start = b.start ∧ a.size ≤ b.size))

/-- The sort_unstable call.  Rust sorts by the Ord instance; the embedding
uses mergeSort with the same comparison (an unstable sort may order regions
with equal (start, size) differently, which changes nothing proved below
since such regions are immediately merged). -/
def sortRegions (l : List Region) : List Region :=
  l.mergeSort Region.le

/-- The body of the overlap branch of sort_and_merge: when p.end() is at
least reg.start(), p absorbs reg, growing to reg.end() when reg sticks out. -/
def extendPending (p reg : Region) : Region :=
  if p.endPos < reg.endPos then { p with size := reg.endPos - p.start } else p

/-- The drain loop of ContigRegions::sort_and_merge, after the first sorted
element has been moved into pending: merge regions that overlap or touch,
and assign ix + 1, ix + 2, ... to the pushed regions. -/
def mergeLoop (ix : Nat) (pending : Region) : List Region → Nat × List Region
  | [] => (ix + 1, [{ pending with idx := ix + 1 }])
  | reg :: t =>
    if pending.endPos ≥ reg.start then
      mergeLoop ix (extendPending pending reg) t
    else
      let res := mergeLoop (ix + 1) reg t
      (res.1, { pending with idx := ix + 1 } :: res.2)

/-- ContigRegions::sort_and_merge: empty lists are left alone, otherwise the
list is sorted and drained through the merge loop.  Returns the running
index and the new region list. -/
def sort_and_merge (ix : Nat) (regions : List Region) : Nat × List Region :=
  match sortRegions regions with
  | [] => (ix, [])
  | r :: t => mergeLoop ix r t

/-- Regions::normalize, threading the running index through the contigs in
catalogue iteration order.  Contig names are byte strings (List Nat). -/
def normalizeFrom (ix : Nat) :
    List (List Nat × List Region) → Nat × List (List Nat × List Region)
  | [] => (ix, [])
  | (name, cr) :: t =>
    let p := sort_and_merge ix cr
    let q := normalizeFrom p.1 t
    (q.1, (name, p.2) :: q.2)

/-- Regions::normalize starts the running index at 0 and returns the final
index, the total number of regions. -/
def Regions.normalize (cats : List (List Nat × List Region)) :
    Nat × List (List Nat × List Region) :=
  normalizeFrom 0 cats

/-- A point x is covered by a region list when it lies in some half-open
interval [start, end). -/
def covers (l : List Region) (x : Nat) : Prop :=
  ∃ r ∈ l, r.start ≤ x ∧ x < r.endPos

/-! ## Regions iteration model (src/regions/regions.rs lines 122-124)

Regions::iter iterates a std::collections::HashMap.  The iteration order of
that map is a function of the stored content and of the per-instance random
hash state (std RandomState), not of the content alone; the standard library
leaves it unspecified.  The embedding therefore models an iteration outcome
as the catalogue content permuted by an arbitrary index order; every such
order is one admissible behaviour of the Rust code. -/

def regionsIter (content : List (List Nat × List Region)) (ord : List Nat) :
    List (List Nat × List Region) :=
  ord.map (fun i => content.getD i ([], []))

/-- An admissible iteration order is a permutation of all positions. -/
def IterOrder (content : List (List Nat × List Region))
    (ord : List Nat) : Prop :=
  List.Perm ord (List.range content.length)

/-! ## Beta-binomial histogram writer, numeric core (src/betabin.rs)

The f64 values reached on the claim-relevant path of write_hist are exact
(0.0, integer counts, and 1000.0), so they are modelled as exact rationals
extended with the IEEE special values; the one special-value rule exercised
is 0.0 / 0.0 = NaN.  The per-entry bin weights go through libm lgamma and
exp (an external collaborator per the specification) and are abstracted as a
function parameter; they are never evaluated for an empty histogram. -/

inductive FVal where
  | fin (q : ℚ)
  | pinf
  | ninf
  | nan
deriving DecidableEq, Repr

def fadd : FVal → FVal → FVal
  | .nan, _ => .nan
  | _, .nan => .nan
  | .fin a, .fin b => .fin (a + b)
  | .fin _, .pinf => .pinf
  | .pinf, .fin _ => .pinf
  | .fin _, .ninf => .ninf
  | .ninf, .fin _ => .ninf
  | .pinf, .pinf => .pinf
  | .ninf, .ninf => .ninf
  | .pinf, .ninf => .nan
  | .ninf, .pinf => .nan

def fmul : FVal → FVal → FVal
  | .nan, _ => .nan
  | _, .nan => .nan
  | .fin a, .fin b => .fin (a * b)
  | .fin a, .pinf => if 0 < a then .pinf else if a < 0 then .ninf else .nan
  | .pinf, .fin a => if 0 < a then .pinf else if a < 0 then .ninf else .nan
  | .fin a, .ninf => if 0 < a then .ninf else if a < 0 then .pinf else .nan
  | .ninf, .fin a => if 0 < a then .ninf else if a < 0 then .pinf else .nan
  | .pinf, .pinf => .pinf
  | .pinf, .ninf => .ninf
  | .ninf, .pinf => .ninf
  | .ninf, .ninf => .pinf

def fdiv : FVal → FVal → FVal
  | .nan, _ => .nan
  | _, .nan => .nan
  | .fin a, .fin b =>
    if b = 0 then (if a = 0 then .nan else if 0 < a then .pinf else .ninf)
    else .fin (a / b)
  | .fin _, .pinf => .fin 0
  | .fin _, .ninf => .fin 0
  | .pinf, .fin b => if b < 0 then .ninf else .pinf
  | .ninf, .fin b => if b < 0 then .pinf else .ninf
  | .pinf, .pinf => .nan
  | .pinf, .ninf => .nan
  | .ninf, .pinf => .nan
  | .ninf, .ninf => .nan

/-- BINS = 1000. -/
def BINS : Nat := 1000

/-- The bin accumulator h[ix][i] of write_hist for one read length: 0.0 plus,
for every histogram entry, the weight x * q_i / z computed through lgamma and
exp, abstracted here as the parameter w (w applied to the (b, a) key and the
count gives that entry's contribution at bin i). -/
def histCell (w : (Nat × Nat) × Nat → Nat → FVal)
    (entries : List ((Nat × Nat) × Nat)) (i : Nat) : FVal :=
  entries.foldl (fun acc e => fadd acc (w e i)) (.fin 0)

/-- The per-length normalizer t[ix] of write_hist: 0.0 plus the count x of
every histogram entry. -/
def histTotal (entries : List ((Nat × Nat) × Nat)) : FVal :=
  entries.foldl (fun acc e => fadd acc (.fin (e.2 : ℚ))) (.fin 0)

/-- The value written for bin i of one read length column:
h[i] * scale / t[j], with scale = BINS as f64 and no guard on t[j]. -/
def emittedCell (w : (Nat × Nat) × Nat → Nat → FVal)
    (entries : List ((Nat × Nat) × Nat)) (i : Nat) : FVal :=
  fdiv (fmul (histCell w entries i) (.fin (BINS : ℚ))) (histTotal entries)

/-- C9: for a read length with an empty input histogram, every cell that
write_hist emits in that column is 0.0 * 1000.0 / 0.0 = NaN, not zero: the
division by the per-length total is not guarded. -/
theorem c9_empty_histogram_cell_is_nan :
    ∀ (w : (Nat × Nat) × Nat → Nat → FVal) (i : Nat),
      emittedCell w [] i = FVal.nan ∧ emittedCell w [] i ≠ FVal.fin 0 := by
  intro w i
  have h1 : emittedCell w [] i = FVal.nan := by
    simp [emittedCell, histCell, histTotal, fmul, fdiv]
  exact ⟨h1, by rw [h1]; intro h2; exact FVal.noConfusion h2⟩

/-! ## Theorems for claims C4, C8, C10 -/

/-- C4 counterexample: the claim says the k-mer length constant equals 15, but
src/kmers.rs line 13 sets KMER_LENGTH to 16. -/
theorem c4_kmer_length_is_not_15 : KMER_LENGTH ≠ 15 := by
  decide

/-- C4 (amended): the k-mer length constant used to key the k-mer index, and
written into byte 6 (the k field) of the KMCV header, equals 16. -/
theorem c4_kmer_length_is_16 :
    KMER_LENGTH = 16 ∧
    ∀ n_contigs n_targets mapped on_target redundant total_hits rnd_id,
      (kmcvHeader n_contigs n_targets mapped on_target redundant total_hits
        rnd_id).getD 6 0 = 16 :=
  ⟨rfl, fun _ _ _ _ _ _ _ => rfl⟩

/-- C8: the variable-width skip encoding of write_type_skip_nhits is inverted
by the reference decoder on the whole u32 domain of the encoder: for every
type code below 16 and every skip below 2 to the 32, decoding the emitted
bytes returns exactly the type code and the skip, consuming all bytes. -/
theorem c8_skip_encoding_roundtrip (tcode skip : Nat) (ht : tcode < 16)
    (hs : skip < 2 ^ 32) :
    read_type_skip (write_type_skip_nhits skip tcode) =
      some (tcode, skip, []) := by
  have hb0 : (240 ||| tcode) = 16 * 15 + tcode := by
    have h := shiftLeft_four_lor 15 tcode ht
    simpa using h
  simp only [write_type_skip_nhits]
  split_ifs with h1 h2 h3
  · have hmod : skip % 256 = skip := Nat.mod_eq_of_lt (by omega)
    rw [hmod, shiftLeft_four_lor skip tcode ht]
    simp only [read_type_skip]
    have e1 : (16 * skip + tcode) % 16 = tcode := by omega
    have e2 : (16 * skip + tcode) / 16 = skip := by omega
    rw [e1, e2]
    simp [h1]
  · simp only [read_type_skip, hb0]
    have e1 : (16 * 15 + tcode) % 16 = tcode := by omega
    have e2 : (16 * 15 + tcode) / 16 = 15 := by omega
    rw [e1, e2]
    simp only [show ¬ (15 : Nat) < 15 from by omega, if_false]
    simp [h2]
    omega
  · simp only [read_type_skip, hb0]
    have e1 : (16 * 15 + tcode) % 16 = tcode := by omega
    have e2 : (16 * 15 + tcode) / 16 = 15 := by omega
    rw [e1, e2]
    simp only [show ¬ (15 : Nat) < 15 from by omega, if_false]
    simp only [show ¬ (255 : Nat) < 255 from by omega, if_false]
    have e3 : (skip - 15 - 255) % 256 + 256 * ((skip - 15 - 255) / 256) =
        skip - 15 - 255 := by omega
    simp only [e3]
    simp [h3]
    omega
  · simp only [read_type_skip, hb0]
    have e1 : (16 * 15 + tcode) % 16 = tcode := by omega
    have e2 : (16 * 15 + tcode) / 16 = 15 := by omega
    rw [e1, e2]
    simp only [show ¬ (15 : Nat) < 15 from by omega, if_false]
    simp only [show ¬ (255 : Nat) < 255 from by omega, if_false]
    simp only [show (255 : Nat) + 256 * 255 = 65535 from by norm_num]
    simp only [show ¬ (65535 : Nat) < 65535 from by omega, if_false]
    simp only [Option.some.injEq, Prod.mk.injEq]
    refine ⟨trivial, ?_, trivial⟩
    omega

/-- C8 witness: a concrete round trip through the two-byte-extension branch. -/
theorem c8_skip_encoding_roundtrip_witness :
    read_type_skip (write_type_skip_nhits 70000 3) = some (3, 70000, []) :=
  c8_skip_encoding_roundtrip 3 70000 (by decide) (by decide)

/-- C10: the KMCV type byte cannot distinguish a unique on-target k-mer from a
two-hit k-mer.  A KmerVec with exactly one on-target hit (first slot above 1,
no saturation bit, second slot empty) classifies as UniqueOnTarget, a KmerVec
with exactly two hits (first two slots filled, third empty, no saturation bit)
classifies as LowMultiMap 2, and both classes get type code 1. -/
theorem c10_type_code_collision (v : List Nat) (hlen : v.length = 8) :
    ((1 < v.getD 0 0 ∧ v.getD 0 0 &&& 0x80000000 = 0 ∧ v.getD 1 0 = 0) →
      KmerType.from_kmer_vec v = .UniqueOnTarget ∧
        (KmerType.from_kmer_vec v).type_code = 1) ∧
    ((v.getD 0 0 ≠ 0 ∧ v.getD 0 0 &&& 0x80000000 = 0 ∧ v.getD 1 0 ≠ 0 ∧
        v.getD 2 0 = 0) →
      KmerType.from_kmer_vec v = .LowMultiMap 2 ∧
        (KmerType.from_kmer_vec v).type_code = 1) := by
  rcases v with _ | ⟨a, _ | ⟨b, _ | ⟨c, t⟩⟩⟩
  · simp at hlen
  · simp at hlen
  · simp at hlen
  constructor
  · rintro ⟨h1, h2, h3⟩
    simp only [List.getD_cons_zero, List.getD_cons_succ] at h1 h2 h3
    have ha0 : a ≠ 0 := by omega
    have ha1 : a ≠ 1 := by omega
    have hva : KmerType.from_kmer_vec (a :: b :: c :: t) = .UniqueOnTarget := by
      simp [KmerType.from_kmer_vec, ha0, ha1, h2, h3]
    exact ⟨hva, by simp [hva, KmerType.type_code]⟩
  · rintro ⟨h1, h2, h3, h4⟩
    simp only [List.getD_cons_zero, List.getD_cons_succ] at h1 h2 h3 h4
    have hva : KmerType.from_kmer_vec (a :: b :: c :: t) = .LowMultiMap 2 := by
      simp [KmerType.from_kmer_vec, h1, h2, h3, List.findIdx?, h4]
    exact ⟨hva, by simp [hva, KmerType.type_code]⟩

/-! ## FASTA reader state machine (src/reader.rs lines 105-445)

The reader is embedded as a step loop over the input byte list.  The
embedding models a BufRead whose buffer always holds the whole remaining
input (a BufReader with capacity at least the input length); the consume
bookkeeping of get_seq (used = ix - 1 at the one-character-lookahead states,
the buf.len() - 1 special case for EndSeqAfterLongGap) then amounts to not
consuming the pending byte, which the loop models by recursing on the
unchanged list.  Sequence elements are recorded as pairs (stored, raw):
stored is the Base pushed by the source (the real base when the position
carries a target tag, Base::N otherwise) and raw is Base::from_u8 of the
input byte, carried as a ghost value to state what the stored data replaced.
The k-mer builder and k-mer index updates driven from proc_in_gen write only
k-mer state that the Seq path never reads; they are modelled separately
(KmerBuilder, KmerWork above) and omitted from this loop.  Asserts are
modelled as errors.  Fuel makes the recursion structural; every theorem
below quantifies over the fuel or supplies enough of it. -/

inductive RdrState where
  | Start
  | StartSeqId
  | InSeqId
  | StartSeq
  | StartSeqAfterNewLine
  | StartGap
  | InGap
  | InGapAfterNewLine
  | InSeq
  | InSeqAfterNewLine
  | InLongGap
  | InLongGapAfterNewLine
  | EndSeq
  | EndSeqAfterLongGap
  | StartSeqAfterInitialGap
  | NewContig
deriving DecidableEq, Repr

/-- The persistent reader state: parse state, current contig id, position,
and the remaining region slice of the RegionState. -/
structure MachSt where
  state : RdrState
  seq_id : List Nat
  pos : Nat
  slice : List Region
deriving DecidableEq, Repr

/-- The reader before the first byte. -/
def MachSt.init : MachSt :=
  { state := .Start, seq_id := [], pos := 0, slice := [] }

/-- A catalogue maps contig names (byte strings) to their region lists. -/
abbrev Catalogue := List (List Nat × List Region)

/-- RegionState::check_pos with RegionState::advance inlined: walk the slice
past regions that end before pos; advancing past the last region empties the
slice for good.  Returns the target tag for pos and the new slice. -/
def check_pos : List Region → Nat → Option Nat × List Region
  | [], _ => (none, [])
  | r :: rest, pos =>
    if pos > r.endPos then
      match rest with
      | [] => (none, [])
      | _ :: _ => check_pos rest pos
    else if pos ≥ r.start then (some r.idx, r :: rest)
    else (none, r :: rest)

/-- RegionState::new_contig: fetch the contig regions, treating an absent or
empty list as no slice (the empty list plays the role of None). -/
def lookup_regions (cat : Catalogue) (name : List Nat) : List Region :=
  match cat.lookup name with
  | some l => l
  | none => []

/-- u8::is_ascii_graphic. -/
def is_graphic (c : Nat) : Bool :=
  decide (33 ≤ c ∧ c ≤ 126)

/-- The sequence-id byte test of proc_in_seq_id: ascii, and either tab or
not a control byte. -/
def is_id_char (c : Nat) : Bool :=
  decide (c ≤ 127 ∧ (c = 9 ∨ ¬(c ≤ 31 ∨ c = 127)))

/-- The truncate-at-first-whitespace step of proc_in_seq_id.  The only
Unicode whitespace values an id can hold are tab and space, since every
other whitespace byte is an ASCII control byte and is rejected on push. -/
def trim_id (s : List Nat) : List Nat :=
  s.takeWhile (fun ch => decide (¬(ch = 9 ∨ ch = 32)))

/-- One stored/raw element of a sequence under construction. -/
abbrev BB := Base × Base

/-- proc_in_gen without its k-mer side effects: newline keeps the state
family (s1), a graphic byte is pushed (the real base when on target, else
Base::N) and moves to s2 on a gap base or s3 otherwise, anything else is a
MalformedFasta error. -/
def proc_in_gen (c : Nat) (push : Bool) (s1 s2 s3 : RdrState)
    (target_idx : Option Nat) :
    Except Unit (RdrState × Bool × Option BB) :=
  if c = 10 then .ok (s1, false, none)
  else if is_graphic c then
    let gc := Base.from_u8 c
    let pushed : Option BB :=
      if push then some (if target_idx.isSome then gc else Base.N, gc)
      else none
    .ok (if gc.is_gap then (s2, true, pushed) else (s3, true, pushed))
  else .error ()

/-- proc_start_seq. -/
def proc_start_seq (c : Nat) : Except Unit (RdrState × Bool) :=
  if c = 10 then .ok (.StartSeqAfterNewLine, false)
  else if is_graphic c then
    .ok (if (Base.from_u8 c).is_gap then (.StartSeq, true)
      else (.StartSeqAfterInitialGap, true))
  else .error ()

/-- proc_in_seq_id: newline finishes the id (trimmed at whitespace), a legal
byte is appended, anything else is an error. -/
def proc_in_seq_id (c : Nat) (s : List Nat) :
    Except Unit (RdrState × List Nat) :=
  if c = 10 then .ok (.NewContig, trim_id s)
  else if is_id_char c then .ok (.InSeqId, s ++ [c])
  else .error ()

/-- The tail of get_seq after its loop: when trailing gap bases were
counted, assert that they fit and truncate them; an empty vector yields
None. -/
def finalize (m : MachSt) (input : List Nat) (v : List BB) (gap : Nat) :
    Except Unit (Option (List BB) × MachSt × List Nat) :=
  if gap > 0 then
    if gap ≤ v.length then
      let v2 := v.take (v.length - gap)
      .ok (if v2.isEmpty then none else some v2, m, input)
    else .error ()
  else .ok (if v.isEmpty then none else some v, m, input)

/-- The check_pos call at the top of the per-byte loop: it runs only when a
catalogue is configured. -/
def pos_tag (cat : Option Catalogue) (slice : List Region) (pos : Nat) :
    Option Nat × List Region :=
  match cat with
  | none => (none, slice)
  | some _ => check_pos slice pos

/-- The new_contig slice load: only when a catalogue is configured. -/
def contig_slice (cat : Option Catalogue) (slice1 : List Region)
    (sid : List Nat) : List Region :=
  match cat with
  | none => slice1
  | some catl => lookup_regions catl sid

/-- The byte loop of Rdr::get_seq.  Every iteration first runs check_pos for
the current position (only when a catalogue is configured), then dispatches
on the state.  The three lookahead states EndSeq, EndSeqAfterLongGap and
StartSeqAfterInitialGap leave the pending byte unconsumed; at
StartSeqAfterInitialGap the pending byte is dropped instead when it is the
last byte of the input (the source consumes it with the buffer and hits end
of input), while the buf.len() - 1 consume special case guarantees the
EndSeqAfterLongGap handler always runs. -/
def loop (cat : Option Catalogue) (maxRL : Nat) :
    Nat → MachSt → List Nat → List BB → Nat →
    Except Unit (Option (List BB) × MachSt × List Nat)
  | 0, _, _, _, _ => .error ()
  | fuel + 1, m, input, v, gap =>
    match input with
    | [] => finalize m [] v gap
    | c :: rest =>
      let idx := (pos_tag cat m.slice m.pos).1
      let slice1 := (pos_tag cat m.slice m.pos).2
      match m.state with
      | .Start =>
        if c = 62 then
          loop cat maxRL fuel { m with state := .StartSeqId, slice := slice1 }
            rest v gap
        else .error ()
      | .StartSeqId =>
        match proc_in_seq_id c [] with
        | .error _ => .error ()
        | .ok (st2, id2) =>
          loop cat maxRL fuel
            { m with state := st2, seq_id := id2, slice := slice1 } rest v gap
      | .InSeqId =>
        match proc_in_seq_id c m.seq_id with
        | .error _ => .error ()
        | .ok (st2, id2) =>
          loop cat maxRL fuel
            { m with state := st2, seq_id := id2, slice := slice1 } rest v gap
      | .NewContig =>
        let slice2 := contig_slice cat slice1 m.seq_id
        match proc_start_seq c with
        | .error _ => .error ()
        | .ok (st2, inc) =>
          let m2 := { m with state := st2, pos := (if inc then 1 else 0), slice := slice2 }
          if st2 = .StartSeqAfterInitialGap then
            loop cat maxRL fuel m2 (c :: rest) v gap
          else loop cat maxRL fuel m2 rest v gap
      | .StartSeq =>
        match proc_start_seq c with
        | .error _ => .error ()
        | .ok (st2, inc) =>
          let m2 := { m with state := st2, pos := m.pos + (if inc then 1 else 0), slice := slice1 }
          if st2 = .StartSeqAfterInitialGap then
            loop cat maxRL fuel m2 (c :: rest) v gap
          else loop cat maxRL fuel m2 rest v gap
      | .StartSeqAfterNewLine =>
        if c = 62 then
          loop cat maxRL fuel { m with state := .StartSeqId, slice := slice1 }
            rest v gap
        else
          match proc_start_seq c with
          | .error _ => .error ()
          | .ok (st2, inc) =>
            let m2 := { m with state := st2, pos := m.pos + (if inc then 1 else 0), slice := slice1 }
            if st2 = .StartSeqAfterInitialGap then
              loop cat maxRL fuel m2 (c :: rest) v gap
            else loop cat maxRL fuel m2 rest v gap
      | .InSeq =>
        match proc_in_gen c true .InSeqAfterNewLine .StartGap .InSeq idx with
        | .error _ => .error ()
        | .ok (st2, inc, pushed) =>
          loop cat maxRL fuel { m with state := st2, pos := m.pos + (if inc then 1 else 0), slice := slice1 } rest (v ++ pushed.toList) 0
      | .InSeqAfterNewLine =>
        if c = 62 then
          loop cat maxRL fuel { m with state := .EndSeq, slice := slice1 }
            rest v gap
        else
          match proc_in_gen c true .InSeqAfterNewLine .StartGap .InSeq idx with
          | .error _ => .error ()
          | .ok (st2, inc, pushed) =>
            loop cat maxRL fuel { m with state := st2, pos := m.pos + (if inc then 1 else 0), slice := slice1 } rest (v ++ pushed.toList) gap
      | .StartGap =>
        match proc_in_gen c true .InGapAfterNewLine .InGap .InSeq idx with
        | .error _ => .error ()
        | .ok (st2, inc, pushed) =>
          loop cat maxRL fuel { m with state := st2, pos := m.pos + (if inc then 1 else 0), slice := slice1 } rest (v ++ pushed.toList) 1
      | .InGap =>
        let gap2 := gap + 1
        if gap2 ≥ maxRL then
          if v.length > gap2 then
            let v2 := v.take (v.length - gap2)
            match proc_in_gen c false .InLongGapAfterNewLine .InLongGap
                .EndSeqAfterLongGap idx with
            | .error _ => .error ()
            | .ok (st2, inc, _) =>
              let m2 := { m with state := st2, pos := m.pos + (if inc then 1 else 0), slice := slice1 }
              if st2 = .EndSeqAfterLongGap then
                loop cat maxRL fuel m2 (c :: rest) v2 0
              else loop cat maxRL fuel m2 rest v2 0
          else .error ()
        else
          match proc_in_gen c true .InGapAfterNewLine .InGap .InSeq idx with
          | .error _ => .error ()
          | .ok (st2, inc, pushed) =>
            loop cat maxRL fuel { m with state := st2, pos := m.pos + (if inc then 1 else 0), slice := slice1 } rest (v ++ pushed.toList) gap2
      | .InGapAfterNewLine =>
        if c = 62 then
          loop cat maxRL fuel { m with state := .EndSeq, slice := slice1 }
            rest v gap
        else
          match proc_in_gen c true .InGapAfterNewLine .InGap .InSeq idx with
          | .error _ => .error ()
          | .ok (st2, inc, pushed) =>
            loop cat maxRL fuel { m with state := st2, pos := m.pos + (if inc then 1 else 0), slice := slice1 } rest (v ++ pushed.toList) gap
      | .InLongGap =>
        match proc_in_gen c false .InLongGapAfterNewLine .InLongGap
            .EndSeqAfterLongGap idx with
        | .error _ => .error ()
        | .ok (st2, inc, _) =>
          let m2 := { m with state := st2, pos := m.pos + (if inc then 1 else 0), slice := slice1 }
          if st2 = .EndSeqAfterLongGap then
            loop cat maxRL fuel m2 (c :: rest) v gap
          else loop cat maxRL fuel m2 rest v gap
      | .InLongGapAfterNewLine =>
        if c = 62 then
          loop cat maxRL fuel { m with state := .EndSeq, slice := slice1 }
            rest v gap
        else
          match proc_in_gen c false .InLongGapAfterNewLine .InLongGap
              .EndSeqAfterLongGap idx with
          | .error _ => .error ()
          | .ok (st2, inc, _) =>
            let m2 := { m with state := st2, pos := m.pos + (if inc then 1 else 0), slice := slice1 }
            if st2 = .EndSeqAfterLongGap then
              loop cat maxRL fuel m2 (c :: rest) v gap
            else loop cat maxRL fuel m2 rest v gap
      | .EndSeq =>
        let m2 := { m with state := .StartSeqId, slice := slice1 }
        if v.isEmpty then loop cat maxRL fuel m2 (c :: rest) v gap
        else finalize m2 (c :: rest) v gap
      | .EndSeqAfterLongGap =>
        let m2 := { m with state := .StartSeq, pos := m.pos - 1, slice := slice1 }
        if v.isEmpty then loop cat maxRL fuel m2 (c :: rest) v gap
        else finalize m2 (c :: rest) v gap
      | .StartSeqAfterInitialGap =>
        match rest with
        | [] => finalize m [] v gap
        | _ :: _ =>
          let m2 := { m with state := .InSeq, pos := m.pos - 1, slice := slice1 }
          if v.isEmpty then loop cat maxRL fuel m2 (c :: rest) v gap
          else finalize m2 (c :: rest) v gap

/-- Rdr::get_seq: run the loop with enough fuel for the remaining input (at
most two visits per byte plus the final step). -/
def get_seq (cat : Option Catalogue) (maxRL : Nat) (m : MachSt)
    (input : List Nat) :
    Except Unit (Option (List BB) × MachSt × List Nat) :=
  loop cat maxRL (2 * input.length + 2) m input [] 0

/-- The reader loop of reader(): keep yielding sequences until get_seq
returns None or an error. -/
def gets (cat : Option Catalogue) (maxRL : Nat) :
    Nat → MachSt → List Nat → List (List BB)
  | 0, _, _ => []
  | fuel + 1, m, input =>
    match get_seq cat maxRL m input with
    | .error _ => []
    | .ok (none, _, _) => []
    | .ok (some s, m2, rest) => s :: gets cat maxRL fuel m2 rest

/-- All sequences the reader produces for an input (every successful
sequence consumes at least one byte, so input.length + 1 rounds suffice). -/
def reader_seqs (cat : Option Catalogue) (maxRL : Nat)
    (input : List Nat) : List (List BB) :=
  gets cat maxRL (input.length + 1) MachSt.init input

/-! ## Sliding composition counter (src/process.rs)

Counts holds four base counts and the emission threshold; Work holds the
base deque (length max read length, front at index 0) and one Counts per
read length.  The GcHist HashMap is modelled as an association list in first
insertion order; GcRes maps each configured read length to its histogram.
The embedding covers the bisulfite-off configuration (claim C1 fixes
bisulfite off); asserts and unwraps are modelled as errors. -/

structure Counts where
  counts : List Nat
  threshold : Nat
deriving DecidableEq, Repr

/-- Counts::remove_base: gaps are ignored, removing from an empty count is
an assert failure. -/
def Counts.remove_base (c : Counts) (b : Base) : Option Counts :=
  if b.is_gap then some c
  else
    if c.counts.getD b.val 0 = 0 then none
    else some { c with counts := c.counts.set b.val (c.counts.getD b.val 0 - 1) }

/-- Counts::add_base. -/
def Counts.add_base (c : Counts) (b : Base) : Counts :=
  if b.is_gap then c
  else { c with counts := c.counts.set b.val (c.counts.getD b.val 0 + 1) }

/-- Counts::get_counts: (A + T, C + G) once the window holds enough valid
bases. -/
def Counts.get_counts (c : Counts) : Option (Nat × Nat) :=
  if c.counts.sum ≥ c.threshold then
    some (c.counts.getD 0 0 + c.counts.getD 2 0,
      c.counts.getD 1 0 + c.counts.getD 3 0)
  else none

/-- The threshold of Work::new, ceil(l * T).  The source computes it in f64;
for the thresholds of interest (T exactly representable, small l) the f64
computation is exact.  The ceiling of l * T is computed here as the integer
ceiling division of l * T.num by T.den, which agrees with it whenever T is
positive (the configured threshold lies in (0, 1]). -/
def threshold_for (l : Nat) (T : ℚ) : Nat :=
  (((l : Int) * T.num + (T.den : Int) - 1) / (T.den : Int)).toNat

/-- Work::new / Work::clear: one zeroed Counts per read length. -/
def work_init (rl : List Nat) (T : ℚ) : List Counts :=
  rl.map (fun l => { counts := [0, 0, 0, 0], threshold := threshold_for l T })

/-- One (at, gc) histogram, in first insertion order. -/
abbrev Hist := List ((Nat × Nat) × Nat)

def bump_hist : Hist → (Nat × Nat) → Hist
  | [], k => [(k, 1)]
  | (k0, n) :: t, k =>
    if k0 = k then (k0, n + 1) :: t else (k0, n) :: bump_hist t k

/-- The per-read-length histograms (GcRes). -/
abbrev GcRes := List (Nat × Hist)

/-- GcRes::add_count: the unwrap on a read length absent from the map is a
panic. -/
def add_count : GcRes → Nat → (Nat × Nat) → Option GcRes
  | [], _, _ => none
  | (l0, h) :: t, l, key =>
    if l0 = l then some ((l0, bump_hist h key) :: t)
    else (add_count t l key).map (fun t2 => (l0, h) :: t2)

/-- The decrement phase of process_seq: for each read length l, remove the
base at deque index maxLen - l.  The assert l <= max_len and the get unwrap
are errors. -/
def remove_all (maxLen : Nat) (buf : List Base) :
    List (Nat × Counts) → Option (List Counts)
  | [] => some []
  | (l, c) :: t =>
    if l > maxLen then none
    else
      match buf.get? (maxLen - l) with
      | none => none
      | some base =>
        match c.remove_base base with
        | none => none
        | some c2 => (remove_all maxLen buf t).map (fun cs => c2 :: cs)

/-- The increment-and-emit phase of process_seq (bisulfite off): each Counts
absorbs the incoming base and emits its (at, gc) point when the window
passes the threshold. -/
def add_all (b : Base) : List (Nat × Counts) → GcRes →
    Option (List Counts × GcRes)
  | [], res => some ([], res)
  | (l, c) :: t, res =>
    let c2 := c.add_base b
    let step : Option GcRes :=
      match c2.get_counts with
      | some key => add_count res l key
      | none => some res
    match step with
    | none => none
    | some res2 =>
      match add_all b t res2 with
      | none => none
      | some (cs, res3) => some (c2 :: cs, res3)

/-- One iteration of the process_seq base loop: decrement the bases about to
fall out of each window, slide the deque, then count and emit. -/
def proc_step (rl : List Nat) (maxLen : Nat)
    (acc : List Base × List Counts × GcRes) (b : Base) :
    Option (List Base × List Counts × GcRes) :=
  match remove_all maxLen acc.1 (rl.zip acc.2.1) with
  | none => none
  | some cs1 =>
    let buf2 := acc.1.tail ++ [b]
    match add_all b (rl.zip cs1) acc.2.2 with
    | none => none
    | some (cs2, res2) => some (buf2, cs2, res2)

/-- process_seq (bisulfite off): clear the work area, then feed the stored
bases followed by max_len padding gaps. -/
def process_seq (rl : List Nat) (T : ℚ) (maxLen : Nat) (s : List Base)
    (res : GcRes) : Option GcRes :=
  let padded := s ++ List.replicate maxLen Base.Other
  let init : List Base × List Counts × GcRes :=
    (List.replicate maxLen Base.Other, work_init rl T, res)
  (padded.foldl (fun o b => o.bind (fun acc => proc_step rl maxLen acc b))
    (some init)).map (fun acc => acc.2.2)

/-- GcRes::new. -/
def gcres_init (rl : List Nat) : GcRes := rl.map (fun l => (l, []))

/-- The full single-threaded pipeline: read every sequence, then run each
one through the sliding-window counter (histogram merging is pointwise
addition, so the multiset of sequences fixes the result regardless of how
the workers share them). -/
def run_pipeline (input : List Nat) (rl : List Nat) (T : ℚ) : Option GcRes :=
  let maxRL := rl.foldl Nat.max 0
  let seqs := reader_seqs none maxRL input
  seqs.foldl
    (fun o s => o.bind (fun res => process_seq rl T maxRL (s.map Prod.fst) res))
    (some (gcres_init rl))

/-! ## Theorems for claim C6 -/

theorem mergeLoop_fst (t : List Region) :
    ∀ ix p, (mergeLoop ix p t).1 = ix + (mergeLoop ix p t).2.length := by
  induction t with
  | nil => intro ix p; simp [mergeLoop]
  | cons reg t ih =>
    intro ix p
    simp only [mergeLoop]
    split
    · exact ih ix _
    · simp only [List.length_cons]
      rw [ih (ix + 1) reg]
      omega

theorem mergeLoop_idx (t : List Region) :
    ∀ ix p, (mergeLoop ix p t).2.map Region.idx =
      List.range' (ix + 1) (mergeLoop ix p t).2.length := by
  induction t with
  | nil => intro ix p; simp [mergeLoop]
  | cons reg t ih =>
    intro ix p
    simp only [mergeLoop]
    split
    · exact ih ix _
    · simp only [List.map_cons, List.length_cons, List.range'_succ]
      rw [ih (ix + 1) reg]

theorem extendPending_start (p reg : Region) :
    (extendPending p reg).start = p.start := by
  unfold extendPending
  split <;> rfl

theorem extendPending_endPos (p reg : Region) :
    (extendPending p reg).endPos = max p.endPos reg.endPos := by
  unfold extendPending
  split
  · simp only [Region.endPos] at *
    omega
  · simp only [Region.endPos] at *
    omega

theorem mergeLoop_head_start (t : List Region) :
    ∀ ix p, ∃ r0 rest, (mergeLoop ix p t).2 = r0 :: rest ∧
      r0.start = p.start := by
  induction t with
  | nil => intro ix p; exact ⟨_, _, rfl, rfl⟩
  | cons reg t ih =>
    intro ix p
    simp only [mergeLoop]
    split
    · obtain ⟨r0, rest, h1, h2⟩ := ih ix (extendPending p reg)
      exact ⟨r0, rest, h1, by rw [h2, extendPending_start]⟩
    · exact ⟨_, _, rfl, rfl⟩

theorem mergeLoop_chain (t : List Region) :
    ∀ ix p, List.Pairwise (fun a b => a.start ≤ b.start) (p :: t) →
      List.Chain' (fun a b => a.endPos ≤ b.start) (mergeLoop ix p t).2 := by
  induction t with
  | nil => intro ix p _; simp [mergeLoop]
  | cons reg t ih =>
    intro ix p hp
    have hpt : ∀ q ∈ reg :: t, p.start ≤ q.start :=
      fun q hq => (List.pairwise_cons.1 hp).1 q hq
    have htail : List.Pairwise (fun a b : Region => a.start ≤ b.start)
        (reg :: t) := (List.pairwise_cons.1 hp).2
    simp only [mergeLoop]
    split
    · next hmerge =>
      apply ih ix (extendPending p reg)
      apply List.pairwise_cons.2
      refine ⟨?_, (List.pairwise_cons.1 htail).2⟩
      intro q hq
      rw [extendPending_start]
      exact hpt q (List.mem_cons_of_mem reg hq)
    · next hsep =>
      obtain ⟨r0, rest, h1, h2⟩ := mergeLoop_head_start t (ix + 1) reg
      apply List.chain'_cons'.2
      constructor
      · intro b hb
        rw [h1] at hb
        simp at hb
        subst hb
        simp only [Region.endPos] at *
        omega
      · exact ih (ix + 1) reg htail

theorem covers_cons (r : Region) (l : List Region) (x : Nat) :
    covers (r :: l) x ↔ (r.start ≤ x ∧ x < r.endPos) ∨ covers l x := by
  simp [covers]

theorem covers_idx_irrelevant (p : Region) (n : Nat) (l : List Region)
    (x : Nat) : covers ({ p with idx := n } :: l) x ↔ covers (p :: l) x := by
  simp [covers_cons, Region.endPos]

theorem mergeLoop_covers (t : List Region) :
    ∀ ix p x, List.Pairwise (fun a b => a.start ≤ b.start) (p :: t) →
      (covers (mergeLoop ix p t).2 x ↔ covers (p :: t) x) := by
  induction t with
  | nil =>
    intro ix p x _
    simp only [mergeLoop]
    exact covers_idx_irrelevant p (ix + 1) [] x
  | cons reg t ih =>
    intro ix p x hp
    have hpr : p.start ≤ reg.start :=
      (List.pairwise_cons.1 hp).1 reg (List.mem_cons_self reg t)
    have htail : List.Pairwise (fun a b : Region => a.start ≤ b.start)
        (reg :: t) := (List.pairwise_cons.1 hp).2
    simp only [mergeLoop]
    split
    · next hmerge =>
      have hext : List.Pairwise (fun a b : Region => a.start ≤ b.start)
          (extendPending p reg :: t) := by
        apply List.pairwise_cons.2
        refine ⟨?_, (List.pairwise_cons.1 htail).2⟩
        intro q hq
        rw [extendPending_start]
        exact (List.pairwise_cons.1 hp).1 q (List.mem_cons_of_mem reg hq)
      rw [ih ix (extendPending p reg) x hext]
      rw [covers_cons, covers_cons, covers_cons]
      have hs := extendPending_start p reg
      have he := extendPending_endPos p reg
      constructor
      · rintro (h | h)
        · rw [hs, he] at h
          simp only [Region.endPos] at *
          omega
        · right; right; exact h
      · rintro (h | h | h)
        · left; rw [hs, he]
          simp only [Region.endPos] at *
          omega
        · left; rw [hs, he]
          simp only [Region.endPos] at *
          omega
        · right; exact h
    · next hsep =>
      rw [covers_idx_irrelevant p (ix + 1) _ x]
      simp only [covers_cons, ih (ix + 1) reg x htail]

theorem regionLe_trans (a b c : Region) (hab : Region.le a b)
    (hbc : Region.le b c) : Region.le a c := by
  simp only [Region.le, decide_eq_true_eq] at *
  omega

theorem regionLe_total (a b : Region) :
    (Region.le a b || Region.le b a) = true := by
  rw [Bool.or_eq_true]
  simp only [Region.le, decide_eq_true_eq]
  omega

theorem sortRegions_pairwise (l : List Region) :
    List.Pairwise (fun a b => a.start ≤ b.start) (sortRegions l) := by
  have h := @List.sorted_mergeSort Region Region.le regionLe_trans
    regionLe_total l
  exact h.imp (fun hab => by
    simp only [Region.le, decide_eq_true_eq] at hab
    omega)

theorem sortRegions_perm (l : List Region) :
    List.Perm (sortRegions l) l :=
  List.mergeSort_perm l Region.le

theorem covers_perm {l1 l2 : List Region} (h : List.Perm l1 l2) (x : Nat) :
    covers l1 x ↔ covers l2 x := by
  simp only [covers]
  constructor
  · rintro ⟨r, hr, h2⟩; exact ⟨r, h.mem_iff.1 hr, h2⟩
  · rintro ⟨r, hr, h2⟩; exact ⟨r, h.mem_iff.2 hr, h2⟩

theorem sort_and_merge_spec (ix : Nat) (l : List Region) :
    (sort_and_merge ix l).1 = ix + (sort_and_merge ix l).2.length ∧
    (sort_and_merge ix l).2.map Region.idx =
      List.range' (ix + 1) (sort_and_merge ix l).2.length ∧
    List.Chain' (fun a b => a.endPos ≤ b.start) (sort_and_merge ix l).2 ∧
    ∀ x, covers (sort_and_merge ix l).2 x ↔ covers l x := by
  unfold sort_and_merge
  rcases hs : sortRegions l with - | ⟨r, t⟩
  · have hnil : l = [] := by
      have hp := sortRegions_perm l
      rw [hs] at hp
      exact (List.Perm.nil_eq hp).symm
    subst hnil
    simp [covers]
  · have hpw := sortRegions_pairwise l
    rw [hs] at hpw
    refine ⟨mergeLoop_fst t ix r, mergeLoop_idx t ix r,
      mergeLoop_chain t ix r hpw, ?_⟩
    intro x
    rw [mergeLoop_covers t ix r x hpw]
    apply covers_perm
    rw [← hs]
    exact sortRegions_perm l

/-- Total number of regions across all contigs of a catalogue. -/
def totalRegions (l : List (List Nat × List Region)) : Nat :=
  (l.map (fun pr => pr.2.length)).sum

theorem normalizeFrom_spec (cats : List (List Nat × List Region)) :
    ∀ ix,
      (normalizeFrom ix cats).1 =
        ix + totalRegions (normalizeFrom ix cats).2 ∧
      (((normalizeFrom ix cats).2.map (fun pr => pr.2)).flatten.map
          Region.idx) =
        List.range' (ix + 1) (totalRegions (normalizeFrom ix cats).2) ∧
      List.Forall₂ (fun a b => a.1 = b.1 ∧ ∀ x, covers b.2 x ↔ covers a.2 x)
        cats (normalizeFrom ix cats).2 ∧
      ∀ pr ∈ (normalizeFrom ix cats).2,
        List.Chain' (fun a b => a.endPos ≤ b.start) pr.2 := by
  induction cats with
  | nil =>
    intro ix
    simp [normalizeFrom, totalRegions]
  | cons hd t ih =>
    intro ix
    obtain ⟨name, cr⟩ := hd
    obtain ⟨hA, hB, hC, hD⟩ := sort_and_merge_spec ix cr
    obtain ⟨iA, iB, iC, iD⟩ := ih (sort_and_merge ix cr).1
    simp only [normalizeFrom, totalRegions, List.map_cons, List.sum_cons,
      List.flatten_cons, List.map_append]
    refine ⟨?_, ?_, ?_, ?_⟩
    · rw [iA, hA]
      simp only [totalRegions]
      omega
    · rw [hB, iB, hA]
      have e1 : ix + (sort_and_merge ix cr).2.length + 1 =
          ix + 1 + (sort_and_merge ix cr).2.length := by omega
      rw [e1]
      rw [Nat.add_comm ((sort_and_merge ix cr).2.length)]
      exact List.range'_append_1 _ _ _
    · exact List.forall₂_cons.2 ⟨⟨rfl, hD⟩, iC⟩
    · intro pr hpr
      rcases List.mem_cons.1 hpr with h | h
      · subst h; exact hC
      · exact iD pr h

/-- C6: after normalize, within each contig the regions form a chain with
end not exceeding the next start (so they are sorted and separated, every
overlapping or touching pair having been merged), each contig covers exactly
the points its input regions covered with the contig names kept in place,
the idx values across all contigs in order are exactly 1, 2, ..., n_total,
and the returned value is n_total, the total count of final regions. -/
theorem c6_normalize_spec (cats : List (List Nat × List Region)) :
    (∀ pr ∈ (Regions.normalize cats).2,
        List.Chain' (fun a b => a.endPos ≤ b.start) pr.2) ∧
    (((Regions.normalize cats).2.map (fun pr => pr.2)).flatten.map
        Region.idx) =
      List.range' 1 (totalRegions (Regions.normalize cats).2) ∧
    (Regions.normalize cats).1 = totalRegions (Regions.normalize cats).2 ∧
    List.Forall₂ (fun a b => a.1 = b.1 ∧ ∀ x, covers b.2 x ↔ covers a.2 x)
      cats (Regions.normalize cats).2 := by
  obtain ⟨hA, hB, hC, hD⟩ := normalizeFrom_spec cats 0
  simp only [Regions.normalize]
  exact ⟨hD, hB, by rw [hA]; omega, hC⟩

/-! ## Theorems for claim C7 -/

/-- The two-contig catalogue used to exhibit order dependence. -/
def c7_content : List (List Nat × List Region) :=
  [([97], []), ([98], [])]

/-- C7 counterexample: iteration over a Regions catalogue is not a function
of the content alone.  Both [0, 1] and [1, 0] are admissible HashMap
iteration orders for the same two-contig content, and they yield the contig
pairs, and hence the KMCV contig-id assignment, in different orders. -/
theorem c7_iteration_order_not_content_determined :
    IterOrder c7_content [0, 1] ∧ IterOrder c7_content [1, 0] ∧
    regionsIter c7_content [0, 1] ≠ regionsIter c7_content [1, 0] := by
  refine ⟨?_, ?_, by decide⟩
  · show List.Perm [0, 1] (List.range c7_content.length)
    decide
  · show List.Perm [1, 0] (List.range c7_content.length)
    decide

theorem getD_range_map {α : Type} (l : List α) (d : α) :
    (List.range l.length).map (fun i => l.getD i d) = l := by
  induction l with
  | nil => rfl
  | cons a t ih =>
    rw [List.length_cons, List.range_succ_eq_map, List.map_cons]
    simp only [List.getD_cons_zero, List.map_map]
    congr 1

/-- C7 (amended): what is determined by the catalogue content alone is the
collection of (contig name, regions) pairs up to order: every admissible
iteration order yields a permutation of the content, so two iterations agree
as multisets; the order itself, and with it the KMCV contig-id assignment,
additionally depends on the per-instance hash state. -/
theorem c7_iteration_is_permutation_of_content
    (content : List (List Nat × List Region)) (ord : List Nat)
    (h : IterOrder content ord) :
    List.Perm (regionsIter content ord) content := by
  unfold regionsIter
  have h2 : List.Perm (ord.map (fun i => content.getD i ([], [])))
      ((List.range content.length).map (fun i => content.getD i ([], []))) :=
    List.Perm.map _ h
  rw [getD_range_map content ([], [])] at h2
  exact h2

/-- C7 witness: the permutation fact at the concrete catalogue and the
reversed order. -/
theorem c7_iteration_is_permutation_of_content_witness :
    List.Perm (regionsIter c7_content [1, 0]) c7_content :=
  c7_iteration_is_permutation_of_content c7_content [1, 0]
    (by show List.Perm [1, 0] (List.range c7_content.length); decide)

/-! ## Theorems for claims C1 and C2 -/

/-- The FASTA input of spec scenario 1 as bytes: one contig c1 with the
bases ACGTACGT. -/
def c1_input : List Nat := [62, 99, 49, 10, 65, 67, 71, 84, 65, 67, 71, 84, 10]

/-- C1: with no region catalogue the reader substitutes Base::N for every
base (the no-targets branch of the per-byte loop yields no tag despite its
comment that everything is on target), so for the input of spec scenario 1
with read length 4, threshold 1.0 and bisulfite off, the emitted sequence is
eight Ns and the final histogram for read length 4 is empty rather than the
claimed entry (at: 2, gc: 2) with count 5.  (Running the counter on the
actual bases ACGTACGT does give that entry with count 5, confirming the
substitution as the point of failure.) -/
theorem c1_pipeline_histogram_empty :
    run_pipeline c1_input [4] 1 = some [(4, ([] : Hist))] ∧
    reader_seqs none 4 c1_input =
      [[(Base.N, Base.A), (Base.N, Base.C), (Base.N, Base.G),
        (Base.N, Base.T), (Base.N, Base.A), (Base.N, Base.C),
        (Base.N, Base.G), (Base.N, Base.T)]] ∧
    process_seq [4] 1 4 [Base.A, Base.C, Base.G, Base.T, Base.A, Base.C,
      Base.G, Base.T] (gcres_init [4]) = some [(4, [(((2 : Nat), (2 : Nat)),
      (5 : Nat))])] ∧
    ([] : Hist) ≠ [((2, 2), 5)] := by
  refine ⟨by decide, by decide, by decide, by decide⟩

/-- The counterexample input for C2: one contig whose sequence is A, N, a
newline inside the gap run, then two more Ns, read with max read length 4
and no catalogue. -/
def c2_input : List Nat := [62, 99, 10, 65, 78, 10, 78, 78]

/-- C2 counterexample: the reader emits the sequence [(N, A), (N, N)]
(stored, raw) for c2_input.  Its first stored element is Base::N, a gap (the
claim says the first element is never a gap): with no catalogue every pushed
base is the substituted N.  Moreover even the underlying input base of the
last element is a gap: the newline inside the gap run is processed in the
InGapAfterNewLine state, which never increments the gap counter, so the
trailing truncation removes two elements where three trailing gap bases were
pushed. -/
theorem c2_seq_gap_at_both_ends :
    reader_seqs none 4 c2_input = [[(Base.N, Base.A), (Base.N, Base.N)]] ∧
    Base.is_gap Base.N = true := by
  refine ⟨by decide, by decide⟩

/-! ## The head invariant of the reader (claim C2, amended) -/

/-- A good sequence element: its underlying input base is not a gap, and the
stored value is either that base (position on target) or the substituted
Base::N. -/
def goodPair (p : BB) : Prop :=
  p.2.is_gap = false ∧ (p.1 = p.2 ∨ p.1 = Base.N)

/-- Every element the head? of a vector yields is good. -/
def goodHead (v : List BB) : Prop :=
  ∀ p ∈ v.head?, goodPair p

/-- The head of the remaining input, if any, is a non-gap base. -/
def headRawOk (input : List Nat) : Prop :=
  ∀ c ∈ input.head?, (Base.from_u8 c).is_gap = false

/-- A sequence that starts with a good element. -/
def goodFirst (s : List BB) : Prop :=
  ∃ p, s.head? = some p ∧ goodPair p

/-- The states that occur only before any base of the current sequence has
been pushed. -/
def preSeqStates (st : RdrState) : Prop :=
  st = .Start ∨ st = .StartSeqId ∨ st = .InSeqId ∨ st = .NewContig ∨
    st = .StartSeq ∨ st = .StartSeqAfterNewLine

/-- The states that can push a byte of any kind and therefore need a
non-empty vector for the head to be protected. -/
def midGapStates (st : RdrState) : Prop :=
  st = .InSeqAfterNewLine ∨ st = .StartGap ∨ st = .InGap ∨
    st = .InGapAfterNewLine

instance (st : RdrState) : Decidable (preSeqStates st) := by
  unfold preSeqStates; infer_instance

instance (st : RdrState) : Decidable (midGapStates st) := by
  unfold midGapStates; infer_instance

/-- The loop invariant: the vector head is good; at
StartSeqAfterInitialGap the vector is empty and the pending byte is a
non-gap base; at InSeq with an empty vector the pending byte is a non-gap
base (it is the re-consumed byte that triggered StartSeqAfterInitialGap);
the mid-gap states have a non-empty vector; the pre-sequence states have an
empty one. -/
def StInv (st : RdrState) (input : List Nat) (v : List BB) : Prop :=
  goodHead v ∧
  (st = .StartSeqAfterInitialGap → v = [] ∧ headRawOk input) ∧
  (st = .InSeq → v = [] → headRawOk input) ∧
  (midGapStates st → v ≠ []) ∧
  (preSeqStates st → v = [])

theorem goodHead_nil : goodHead [] := by
  intro p hp
  simp at hp

theorem goodHead_append (v l : List BB) (hv : v ≠ []) (h : goodHead v) :
    goodHead (v ++ l) := by
  intro p hp
  apply h
  rcases v with - | ⟨q, t⟩
  · exact absurd rfl hv
  · simpa using hp

theorem goodHead_single (b : BB) (hb : goodPair b) : goodHead [b] := by
  intro p hp
  simp at hp
  subst hp
  exact hb

theorem goodHead_take (v : List BB) (n : Nat) (h : goodHead v) :
    goodHead (v.take n) := by
  intro p hp
  apply h
  rcases v with - | ⟨q, t⟩
  · simp at hp
  · rcases n with - | n2
    · simp at hp
    · simpa using hp

theorem StInv_pre (st : RdrState) (input : List Nat)
    (hst : preSeqStates st) : StInv st input [] := by
  refine ⟨goodHead_nil, ?_, ?_, ?_, fun _ => rfl⟩
  · intro h
    subst h
    rcases hst with h | h | h | h | h | h <;> cases h
  · intro h
    subst h
    rcases hst with h | h | h | h | h | h <;> cases h
  · intro h2
    rcases hst with h | h | h | h | h | h <;> subst h <;>
      rcases h2 with h3 | h3 | h3 | h3 <;> cases h3

theorem StInv_ssaig (input : List Nat) (h : headRawOk input) :
    StInv .StartSeqAfterInitialGap input [] := by
  refine ⟨goodHead_nil, fun _ => ⟨rfl, h⟩, ?_, ?_, ?_⟩
  · intro h2; cases h2
  · intro h2; rcases h2 with h3 | h3 | h3 | h3 <;> cases h3
  · intro h2; rcases h2 with h3 | h3 | h3 | h3 | h3 | h3 <;> cases h3

theorem StInv_inseq (input : List Nat) (v : List BB) (hg : goodHead v)
    (h : v = [] → headRawOk input) : StInv .InSeq input v := by
  refine ⟨hg, ?_, fun _ => h, ?_, ?_⟩
  · intro h2; cases h2
  · intro h2; rcases h2 with h3 | h3 | h3 | h3 <;> cases h3
  · intro h2; rcases h2 with h3 | h3 | h3 | h3 | h3 | h3 <;> cases h3

theorem StInv_midgap (st : RdrState) (input : List Nat) (v : List BB)
    (hst : midGapStates st) (hg : goodHead v) (hv : v ≠ []) :
    StInv st input v := by
  refine ⟨hg, ?_, ?_, fun _ => hv, ?_⟩
  · intro h
    subst h
    rcases hst with h | h | h | h <;> cases h
  · intro h
    subst h
    rcases hst with h | h | h | h <;> cases h
  · intro h2
    rcases hst with h | h | h | h <;> subst h <;>
      rcases h2 with h3 | h3 | h3 | h3 | h3 | h3 <;> cases h3

theorem StInv_other (st : RdrState) (input : List Nat) (v : List BB)
    (hst : st = .InLongGap ∨ st = .InLongGapAfterNewLine ∨ st = .EndSeq ∨
      st = .EndSeqAfterLongGap)
    (hg : goodHead v) : StInv st input v := by
  refine ⟨hg, ?_, ?_, ?_, ?_⟩ <;>
    (intro h2; rcases hst with h | h | h | h <;> subst h)
  · cases h2
  · cases h2
  · cases h2
  · cases h2
  · cases h2
  · cases h2
  · cases h2
  · cases h2
  · rcases h2 with h3 | h3 | h3 | h3 <;> cases h3
  · rcases h2 with h3 | h3 | h3 | h3 <;> cases h3
  · rcases h2 with h3 | h3 | h3 | h3 <;> cases h3
  · rcases h2 with h3 | h3 | h3 | h3 <;> cases h3
  · rcases h2 with h3 | h3 | h3 | h3 | h3 | h3 <;> cases h3
  · rcases h2 with h3 | h3 | h3 | h3 | h3 | h3 <;> cases h3
  · rcases h2 with h3 | h3 | h3 | h3 | h3 | h3 <;> cases h3
  · rcases h2 with h3 | h3 | h3 | h3 | h3 | h3 <;> cases h3

theorem newline_is_gap : (Base.from_u8 10).is_gap = true := by decide

theorem proc_in_seq_id_ok (c : Nat) (s : List Nat) (st2 : RdrState)
    (id2 : List Nat) (h : proc_in_seq_id c s = .ok (st2, id2)) :
    st2 = .NewContig ∨ st2 = .InSeqId := by
  unfold proc_in_seq_id at h
  split_ifs at h <;> simp at h <;> simp [h.1]

theorem proc_start_seq_ok (c : Nat) (st2 : RdrState) (inc : Bool)
    (h : proc_start_seq c = .ok (st2, inc)) :
    (st2 = .StartSeqAfterNewLine ∨ st2 = .StartSeq) ∨
      (st2 = .StartSeqAfterInitialGap ∧ (Base.from_u8 c).is_gap = false) := by
  by_cases h1 : c = 10
  · have he : proc_start_seq c = .ok (.StartSeqAfterNewLine, false) := by
      simp [proc_start_seq, h1]
    rw [he] at h
    simp at h
    left; left; exact h.1.symm
  · by_cases h2 : is_graphic c = true
    · by_cases hgap : (Base.from_u8 c).is_gap = true
      · have he : proc_start_seq c = .ok (.StartSeq, true) := by
          simp [proc_start_seq, h1, h2, hgap]
        rw [he] at h
        simp at h
        left; right; exact h.1.symm
      · have he : proc_start_seq c = .ok (.StartSeqAfterInitialGap, true) := by
          simp [proc_start_seq, h1, h2, hgap]
        rw [he] at h
        simp at h
        right
        exact ⟨h.1.symm, by simpa using hgap⟩
    · have he : proc_start_seq c = .error () := by
        simp [proc_start_seq, h1, h2]
      rw [he] at h
      cases h

theorem proc_in_gen_ok (c : Nat) (push : Bool) (s1 s2 s3 : RdrState)
    (idx : Option Nat) (st2 : RdrState) (inc : Bool) (pushed : Option BB)
    (h : proc_in_gen c push s1 s2 s3 idx = .ok (st2, inc, pushed)) :
    (c = 10 ∧ st2 = s1 ∧ pushed = none) ∨
    ((Base.from_u8 c).is_gap = true ∧ st2 = s2 ∧
      pushed = (if push then
        some (if idx.isSome then Base.from_u8 c else Base.N, Base.from_u8 c)
        else none)) ∨
    ((Base.from_u8 c).is_gap = false ∧ st2 = s3 ∧
      pushed = (if push then
        some (if idx.isSome then Base.from_u8 c else Base.N, Base.from_u8 c)
        else none)) := by
  by_cases h1 : c = 10
  · have he : proc_in_gen c push s1 s2 s3 idx = .ok (s1, false, none) := by
      simp [proc_in_gen, h1]
    rw [he] at h
    simp at h
    exact Or.inl ⟨h1, h.1.symm, h.2.2.symm⟩
  · by_cases h2 : is_graphic c = true
    · by_cases hgap : (Base.from_u8 c).is_gap = true
      · have he : proc_in_gen c push s1 s2 s3 idx = .ok (s2, true,
            if push then some (if idx.isSome then Base.from_u8 c else Base.N,
              Base.from_u8 c) else none) := by
          simp [proc_in_gen, h1, h2, hgap]
        rw [he] at h
        simp at h
        exact Or.inr (Or.inl ⟨hgap, h.1.symm, h.2.2.symm⟩)
      · have he : proc_in_gen c push s1 s2 s3 idx = .ok (s3, true,
            if push then some (if idx.isSome then Base.from_u8 c else Base.N,
              Base.from_u8 c) else none) := by
          simp [proc_in_gen, h1, h2, hgap]
        rw [he] at h
        simp at h
        exact Or.inr (Or.inr ⟨by simpa using hgap, h.1.symm, h.2.2.symm⟩)
    · have he : proc_in_gen c push s1 s2 s3 idx = .error () := by
        simp [proc_in_gen, h1, h2]
      rw [he] at h
      cases h

theorem finalize_some (m : MachSt) (input : List Nat) (v : List BB)
    (gap : Nat) (hG : goodHead v) (s : List BB) (m2 : MachSt)
    (r2 : List Nat) (h : finalize m input v gap = .ok (some s, m2, r2)) :
    goodFirst s ∧ m2 = m ∧ r2 = input := by
  by_cases h1 : gap > 0
  · by_cases h2 : gap ≤ v.length
    · by_cases he : (v.take (v.length - gap)).isEmpty = true
      · have hval : finalize m input v gap = .ok (none, m, input) := by
          simp [finalize, h1, h2, he]
        rw [hval] at h
        simp at h
      · have hval : finalize m input v gap =
            .ok (some (v.take (v.length - gap)), m, input) := by
          simp [finalize, h1, h2, he]
        rw [hval] at h
        simp only [Except.ok.injEq, Prod.mk.injEq, Option.some.injEq] at h
        obtain ⟨hs, hm, hr⟩ := h
        refine ⟨?_, hm.symm, hr.symm⟩
        have hne2 : v.take (v.length - gap) ≠ [] := by
          intro hcon
          rw [hcon] at he
          simp at he
        rcases hl : (v.take (v.length - gap)).head? with - | p
        · rw [List.head?_eq_none_iff] at hl
          exact absurd hl hne2
        · refine ⟨p, by rw [← hs, hl], ?_⟩
          exact goodHead_take v _ hG p hl
    · have hval : finalize m input v gap = .error () := by
        simp [finalize, h1, h2]
      rw [hval] at h
      cases h
  · by_cases he : v.isEmpty = true
    · have hval : finalize m input v gap = .ok (none, m, input) := by
        simp [finalize, h1, he]
      rw [hval] at h
      simp at h
    · have hval : finalize m input v gap = .ok (some v, m, input) := by
        simp [finalize, h1, he]
      rw [hval] at h
      simp only [Except.ok.injEq, Prod.mk.injEq, Option.some.injEq] at h
      obtain ⟨hs, hm, hr⟩ := h
      refine ⟨?_, hm.symm, hr.symm⟩
      have hne2 : v ≠ [] := by
        intro hcon
        rw [hcon] at he
        simp at he
      rcases hl : v.head? with - | p
      · rw [List.head?_eq_none_iff] at hl
        exact absurd hl hne2
      · exact ⟨p, by rw [← hs, hl], hG p hl⟩

theorem finalize_empty (m : MachSt) (input : List Nat) (gap : Nat)
    (s : List BB) (m2 : MachSt) (r2 : List Nat) :
    finalize m input [] gap ≠ .ok (some s, m2, r2) := by
  intro h
  unfold finalize at h
  split_ifs at h with h1 h2 <;> simp_all

theorem goodPair_push (gc : Base) (b : Bool) (h : gc.is_gap = false) :
    goodPair ((if b then gc else Base.N), gc) := by
  refine ⟨h, ?_⟩
  by_cases hb : b = true
  · rw [if_pos hb]; exact Or.inl rfl
  · rw [if_neg hb]; exact Or.inr rfl

theorem goodHead_push (v : List BB) (bb : BB) (hG : goodHead v)
    (hbb : goodPair bb) : goodHead (v ++ [bb]) := by
  rcases v with - | ⟨q, t⟩
  · simpa using goodHead_single bb hbb
  · exact goodHead_append _ _ (by simp) hG

theorem append_single_ne_nil (v : List BB) (bb : BB) : v ++ [bb] ≠ [] := by
  simp

/-- The head-protection safety of the get_seq loop: from any state
satisfying the invariant, every sequence the loop returns starts with a good
element, and the loop hands back either one of the two restart states or an
exhausted input. -/
theorem loop_safe (cat : Option Catalogue) (maxRL : Nat) :
    ∀ fuel (m : MachSt) (input : List Nat) (v : List BB) (gap : Nat),
      StInv m.state input v →
      ∀ s m2 r2, loop cat maxRL fuel m input v gap = .ok (some s, m2, r2) →
        goodFirst s ∧
          (m2.state = .StartSeqId ∨ m2.state = .StartSeq ∨ r2 = []) := by
  intro fuel
  induction fuel with
  | zero =>
    intro m input v gap hInv s m2 r2 h
    simp [loop] at h
  | succ fuel ih =>
    intro m input v gap hInv s m2 r2 h
    obtain ⟨hG, hP2, hP3, hP4, hP5⟩ := hInv
    rcases input with - | ⟨c, rest⟩
    · rw [show loop cat maxRL (fuel + 1) m [] v gap = finalize m [] v gap
        from rfl] at h
      obtain ⟨hgf, -, hr2⟩ := finalize_some m [] v gap hG s m2 r2 h
      exact ⟨hgf, Or.inr (Or.inr hr2)⟩
    · obtain ⟨st, sid, pos, slice⟩ := m
      cases st with
      | Start =>
        simp only [loop] at h
        by_cases hc : c = 62
        · rw [if_pos hc] at h
          have hv : v = [] := hP5 (by simp [preSeqStates])
          subst hv
          exact ih _ rest [] gap (StInv_pre _ rest (by simp [preSeqStates])) s m2 r2 h
        · rw [if_neg hc] at h
          simp at h
      | StartSeqId =>
        simp only [loop] at h
        cases hq : proc_in_seq_id c [] with
        | error e => simp [hq] at h
        | ok pr =>
          obtain ⟨st2, id2⟩ := pr
          simp only [hq] at h
          have hv : v = [] := hP5 (by simp [preSeqStates])
          subst hv
          rcases proc_in_seq_id_ok c [] st2 id2 hq with h2 | h2 <;> subst h2
          · exact ih _ rest [] gap (StInv_pre _ rest (by simp [preSeqStates])) s m2 r2 h
          · exact ih _ rest [] gap (StInv_pre _ rest (by simp [preSeqStates])) s m2 r2 h
      | InSeqId =>
        simp only [loop] at h
        cases hq : proc_in_seq_id c sid with
        | error e => simp [hq] at h
        | ok pr =>
          obtain ⟨st2, id2⟩ := pr
          simp only [hq] at h
          have hv : v = [] := hP5 (by simp [preSeqStates])
          subst hv
          rcases proc_in_seq_id_ok c sid st2 id2 hq with h2 | h2 <;> subst h2
          · exact ih _ rest [] gap (StInv_pre _ rest (by simp [preSeqStates])) s m2 r2 h
          · exact ih _ rest [] gap (StInv_pre _ rest (by simp [preSeqStates])) s m2 r2 h
      | NewContig =>
        simp only [loop] at h
        cases hq : proc_start_seq c with
        | error e => simp [hq] at h
        | ok pr =>
          obtain ⟨st2, inc⟩ := pr
          simp only [hq] at h
          have hv : v = [] := hP5 (by simp [preSeqStates])
          subst hv
          rcases proc_start_seq_ok c st2 inc hq with h2 | h2
          · rcases h2 with h3 | h3 <;> subst h3 <;>
              rw [if_neg (by decide)] at h <;>
              exact ih _ rest [] gap (StInv_pre _ rest (by simp [preSeqStates])) s m2 r2 h
          · obtain ⟨h3, hgap⟩ := h2
            subst h3
            rw [if_pos rfl] at h
            refine ih _ (c :: rest) [] gap (StInv_ssaig (c :: rest) ?_)
              s m2 r2 h
            intro cc hcc
            simp at hcc
            subst hcc
            exact hgap
      | StartSeq =>
        simp only [loop] at h
        cases hq : proc_start_seq c with
        | error e => simp [hq] at h
        | ok pr =>
          obtain ⟨st2, inc⟩ := pr
          simp only [hq] at h
          have hv : v = [] := hP5 (by simp [preSeqStates])
          subst hv
          rcases proc_start_seq_ok c st2 inc hq with h2 | h2
          · rcases h2 with h3 | h3 <;> subst h3 <;>
              rw [if_neg (by decide)] at h <;>
              exact ih _ rest [] gap (StInv_pre _ rest (by simp [preSeqStates])) s m2 r2 h
          · obtain ⟨h3, hgap⟩ := h2
            subst h3
            rw [if_pos rfl] at h
            refine ih _ (c :: rest) [] gap (StInv_ssaig (c :: rest) ?_)
              s m2 r2 h
            intro cc hcc
            simp at hcc
            subst hcc
            exact hgap
      | StartSeqAfterNewLine =>
        simp only [loop] at h
        by_cases hc : c = 62
        · rw [if_pos hc] at h
          have hv : v = [] := hP5 (by simp [preSeqStates])
          subst hv
          exact ih _ rest [] gap (StInv_pre _ rest (by simp [preSeqStates])) s m2 r2 h
        · rw [if_neg hc] at h
          cases hq : proc_start_seq c with
          | error e => simp [hq] at h
          | ok pr =>
            obtain ⟨st2, inc⟩ := pr
            simp only [hq] at h
            have hv : v = [] := hP5 (by simp [preSeqStates])
            subst hv
            rcases proc_start_seq_ok c st2 inc hq with h2 | h2
            · rcases h2 with h3 | h3 <;> subst h3 <;>
                rw [if_neg (by decide)] at h <;>
                exact ih _ rest [] gap (StInv_pre _ rest (by simp [preSeqStates])) s m2 r2 h
            · obtain ⟨h3, hgap⟩ := h2
              subst h3
              rw [if_pos rfl] at h
              refine ih _ (c :: rest) [] gap (StInv_ssaig (c :: rest) ?_)
                s m2 r2 h
              intro cc hcc
              simp at hcc
              subst hcc
              exact hgap
      | InSeq =>
        simp only [loop] at h
        cases hq : proc_in_gen c true .InSeqAfterNewLine .StartGap .InSeq
            (pos_tag cat slice pos).1 with
        | error e => simp [hq] at h
        | ok tr =>
          obtain ⟨st2, inc, pushed⟩ := tr
          simp only [hq] at h
          rcases proc_in_gen_ok c true _ _ _ _ st2 inc pushed hq with
            ⟨hc10, hst2, hpu⟩ | ⟨hgap, hst2, hpu⟩ | ⟨hgap, hst2, hpu⟩
          · subst hc10
            have hvne : v ≠ [] := by
              intro hv
              have hro := hP3 rfl hv 10 (by simp)
              exact absurd hro (by decide)
            subst hst2
            subst hpu
            simp only [Option.toList, List.append_nil] at h
            exact ih _ rest v 0
              (StInv_midgap _ rest v (by simp [midGapStates]) hG hvne) s m2 r2 h
          · have hvne : v ≠ [] := by
              intro hv
              have hro := hP3 rfl hv c (by simp)
              rw [hro] at hgap
              cases hgap
            subst hst2
            subst hpu
            simp only [if_true, Option.toList] at h
            refine ih _ rest _ 0 (StInv_midgap _ rest _ (by simp [midGapStates])
              (goodHead_append v _ hvne hG) ?_) s m2 r2 h
            intro hcon
            rw [List.append_eq_nil] at hcon
            exact hvne hcon.1
          · subst hst2
            subst hpu
            simp only [if_true, Option.toList] at h
            have hgp : goodPair (if (pos_tag cat slice pos).1.isSome then
                Base.from_u8 c else Base.N, Base.from_u8 c) :=
              goodPair_push (Base.from_u8 c) _ hgap
            refine ih _ rest _ 0 (StInv_inseq rest _
              (goodHead_push v _ hG hgp) ?_) s m2 r2 h
            intro hcon
            exact absurd hcon (append_single_ne_nil v _)
      | InSeqAfterNewLine =>
        simp only [loop] at h
        by_cases hc : c = 62
        · rw [if_pos hc] at h
          exact ih _ rest v gap (StInv_other .EndSeq rest v (by simp) hG)
            s m2 r2 h
        · rw [if_neg hc] at h
          cases hq : proc_in_gen c true .InSeqAfterNewLine .StartGap .InSeq
              (pos_tag cat slice pos).1 with
          | error e => simp [hq] at h
          | ok tr =>
            obtain ⟨st2, inc, pushed⟩ := tr
            simp only [hq] at h
            have hvne : v ≠ [] := hP4 (by simp [midGapStates])
            rcases proc_in_gen_ok c true _ _ _ _ st2 inc pushed hq with
              ⟨hc10, hst2, hpu⟩ | ⟨hgap, hst2, hpu⟩ | ⟨hgap, hst2, hpu⟩
            · subst hst2
              subst hpu
              simp only [Option.toList, List.append_nil] at h
              exact ih _ rest v gap
                (StInv_midgap _ rest v (by simp [midGapStates]) hG hvne) s m2 r2 h
            · subst hst2
              subst hpu
              simp only [if_true, Option.toList] at h
              refine ih _ rest _ gap (StInv_midgap _ rest _ (by simp [midGapStates])
                (goodHead_append v _ hvne hG) ?_) s m2 r2 h
              intro hcon
              rw [List.append_eq_nil] at hcon
              exact hvne hcon.1
            · subst hst2
              subst hpu
              simp only [if_true, Option.toList] at h
              refine ih _ rest _ gap (StInv_inseq rest _
                (goodHead_append v _ hvne hG) ?_) s m2 r2 h
              intro hcon
              exact absurd hcon (append_single_ne_nil v _)
      | StartGap =>
        simp only [loop] at h
        cases hq : proc_in_gen c true .InGapAfterNewLine .InGap .InSeq
            (pos_tag cat slice pos).1 with
        | error e => simp [hq] at h
        | ok tr =>
          obtain ⟨st2, inc, pushed⟩ := tr
          simp only [hq] at h
          have hvne : v ≠ [] := hP4 (by simp [midGapStates])
          rcases proc_in_gen_ok c true _ _ _ _ st2 inc pushed hq with
            ⟨hc10, hst2, hpu⟩ | ⟨hgap, hst2, hpu⟩ | ⟨hgap, hst2, hpu⟩
          · subst hst2
            subst hpu
            simp only [Option.toList, List.append_nil] at h
            exact ih _ rest v 1
              (StInv_midgap _ rest v (by simp [midGapStates]) hG hvne) s m2 r2 h
          · subst hst2
            subst hpu
            simp only [if_true, Option.toList] at h
            refine ih _ rest _ 1 (StInv_midgap _ rest _ (by simp [midGapStates])
              (goodHead_append v _ hvne hG) ?_) s m2 r2 h
            intro hcon
            rw [List.append_eq_nil] at hcon
            exact hvne hcon.1
          · subst hst2
            subst hpu
            simp only [if_true, Option.toList] at h
            refine ih _ rest _ 1 (StInv_inseq rest _
              (goodHead_append v _ hvne hG) ?_) s m2 r2 h
            intro hcon
            exact absurd hcon (append_single_ne_nil v _)
      | InGap =>
        simp only [loop] at h
        by_cases hlong : gap + 1 ≥ maxRL
        · rw [if_pos hlong] at h
          by_cases hlen : v.length > gap + 1
          · rw [if_pos hlen] at h
            cases hq : proc_in_gen c false .InLongGapAfterNewLine .InLongGap
                .EndSeqAfterLongGap (pos_tag cat slice pos).1 with
            | error e => simp [hq] at h
            | ok tr =>
              obtain ⟨st2, inc, pushed⟩ := tr
              simp only [hq] at h
              have hGt : goodHead (v.take (v.length - (gap + 1))) :=
                goodHead_take v _ hG
              rcases proc_in_gen_ok c false _ _ _ _ st2 inc pushed hq with
                ⟨hc10, hst2, hpu⟩ | ⟨hgap, hst2, hpu⟩ | ⟨hgap, hst2, hpu⟩
              · subst hst2
                rw [if_neg (by decide)] at h
                exact ih _ rest _ 0
                  (StInv_other _ rest _ (by simp) hGt) s m2 r2 h
              · subst hst2
                rw [if_neg (by decide)] at h
                exact ih _ rest _ 0
                  (StInv_other _ rest _ (by simp) hGt) s m2 r2 h
              · subst hst2
                rw [if_pos rfl] at h
                exact ih _ (c :: rest) _ 0
                  (StInv_other _ (c :: rest) _ (by simp) hGt) s m2 r2 h
          · rw [if_neg hlen] at h
            simp at h
        · rw [if_neg hlong] at h
          cases hq : proc_in_gen c true .InGapAfterNewLine .InGap .InSeq
              (pos_tag cat slice pos).1 with
          | error e => simp [hq] at h
          | ok tr =>
            obtain ⟨st2, inc, pushed⟩ := tr
            simp only [hq] at h
            have hvne : v ≠ [] := hP4 (by simp [midGapStates])
            rcases proc_in_gen_ok c true _ _ _ _ st2 inc pushed hq with
              ⟨hc10, hst2, hpu⟩ | ⟨hgap, hst2, hpu⟩ | ⟨hgap, hst2, hpu⟩
            · subst hst2
              subst hpu
              simp only [Option.toList, List.append_nil] at h
              exact ih _ rest v (gap + 1)
                (StInv_midgap _ rest v (by simp [midGapStates]) hG hvne) s m2 r2 h
            · subst hst2
              subst hpu
              simp only [if_true, Option.toList] at h
              refine ih _ rest _ (gap + 1) (StInv_midgap _ rest _ (by simp [midGapStates])
                (goodHead_append v _ hvne hG) ?_) s m2 r2 h
              intro hcon
              rw [List.append_eq_nil] at hcon
              exact hvne hcon.1
            · subst hst2
              subst hpu
              simp only [if_true, Option.toList] at h
              refine ih _ rest _ (gap + 1) (StInv_inseq rest _
                (goodHead_append v _ hvne hG) ?_) s m2 r2 h
              intro hcon
              exact absurd hcon (append_single_ne_nil v _)
      | InGapAfterNewLine =>
        simp only [loop] at h
        by_cases hc : c = 62
        · rw [if_pos hc] at h
          exact ih _ rest v gap (StInv_other .EndSeq rest v (by simp) hG)
            s m2 r2 h
        · rw [if_neg hc] at h
          cases hq : proc_in_gen c true .InGapAfterNewLine .InGap .InSeq
              (pos_tag cat slice pos).1 with
          | error e => simp [hq] at h
          | ok tr =>
            obtain ⟨st2, inc, pushed⟩ := tr
            simp only [hq] at h
            have hvne : v ≠ [] := hP4 (by simp [midGapStates])
            rcases proc_in_gen_ok c true _ _ _ _ st2 inc pushed hq with
              ⟨hc10, hst2, hpu⟩ | ⟨hgap, hst2, hpu⟩ | ⟨hgap, hst2, hpu⟩
            · subst hst2
              subst hpu
              simp only [Option.toList, List.append_nil] at h
              exact ih _ rest v gap
                (StInv_midgap _ rest v (by simp [midGapStates]) hG hvne) s m2 r2 h
            · subst hst2
              subst hpu
              simp only [if_true, Option.toList] at h
              refine ih _ rest _ gap (StInv_midgap _ rest _ (by simp [midGapStates])
                (goodHead_append v _ hvne hG) ?_) s m2 r2 h
              intro hcon
              rw [List.append_eq_nil] at hcon
              exact hvne hcon.1
            · subst hst2
              subst hpu
              simp only [if_true, Option.toList] at h
              refine ih _ rest _ gap (StInv_inseq rest _
                (goodHead_append v _ hvne hG) ?_) s m2 r2 h
              intro hcon
              exact absurd hcon (append_single_ne_nil v _)
      | InLongGap =>
        simp only [loop] at h
        cases hq : proc_in_gen c false .InLongGapAfterNewLine .InLongGap
            .EndSeqAfterLongGap (pos_tag cat slice pos).1 with
        | error e => simp [hq] at h
        | ok tr =>
          obtain ⟨st2, inc, pushed⟩ := tr
          simp only [hq] at h
          rcases proc_in_gen_ok c false _ _ _ _ st2 inc pushed hq with
            ⟨hc10, hst2, hpu⟩ | ⟨hgap, hst2, hpu⟩ | ⟨hgap, hst2, hpu⟩
          · subst hst2
            rw [if_neg (by decide)] at h
            exact ih _ rest v gap
              (StInv_other _ rest v (by simp) hG) s m2 r2 h
          · subst hst2
            rw [if_neg (by decide)] at h
            exact ih _ rest v gap
              (StInv_other _ rest v (by simp) hG) s m2 r2 h
          · subst hst2
            rw [if_pos rfl] at h
            exact ih _ (c :: rest) v gap
              (StInv_other _ (c :: rest) v (by simp) hG) s m2 r2 h
      | InLongGapAfterNewLine =>
        simp only [loop] at h
        by_cases hc : c = 62
        · rw [if_pos hc] at h
          exact ih _ rest v gap (StInv_other .EndSeq rest v (by simp) hG)
            s m2 r2 h
        · rw [if_neg hc] at h
          cases hq : proc_in_gen c false .InLongGapAfterNewLine .InLongGap
              .EndSeqAfterLongGap (pos_tag cat slice pos).1 with
          | error e => simp [hq] at h
          | ok tr =>
            obtain ⟨st2, inc, pushed⟩ := tr
            simp only [hq] at h
            rcases proc_in_gen_ok c false _ _ _ _ st2 inc pushed hq with
              ⟨hc10, hst2, hpu⟩ | ⟨hgap, hst2, hpu⟩ | ⟨hgap, hst2, hpu⟩
            · subst hst2
              rw [if_neg (by decide)] at h
              exact ih _ rest v gap
                (StInv_other _ rest v (by simp) hG) s m2 r2 h
            · subst hst2
              rw [if_neg (by decide)] at h
              exact ih _ rest v gap
                (StInv_other _ rest v (by simp) hG) s m2 r2 h
            · subst hst2
              rw [if_pos rfl] at h
              exact ih _ (c :: rest) v gap
                (StInv_other _ (c :: rest) v (by simp) hG) s m2 r2 h
      | EndSeq =>
        simp only [loop] at h
        by_cases hv : v.isEmpty = true
        · rw [if_pos hv] at h
          have hv2 : v = [] := by simpa using hv
          subst hv2
          exact ih _ (c :: rest) [] gap (StInv_pre _ _ (by simp [preSeqStates])) s m2 r2 h
        · rw [if_neg hv] at h
          obtain ⟨hgf, hm2, -⟩ := finalize_some _ (c :: rest) v gap hG
            s m2 r2 h
          refine ⟨hgf, Or.inl ?_⟩
          rw [hm2]
      | EndSeqAfterLongGap =>
        simp only [loop] at h
        by_cases hv : v.isEmpty = true
        · rw [if_pos hv] at h
          have hv2 : v = [] := by simpa using hv
          subst hv2
          exact ih _ (c :: rest) [] gap (StInv_pre _ _ (by simp [preSeqStates])) s m2 r2 h
        · rw [if_neg hv] at h
          obtain ⟨hgf, hm2, -⟩ := finalize_some _ (c :: rest) v gap hG
            s m2 r2 h
          refine ⟨hgf, Or.inr (Or.inl ?_)⟩
          rw [hm2]
      | StartSeqAfterInitialGap =>
        rcases rest with - | ⟨d, rest2⟩
        · simp only [loop] at h
          obtain ⟨hv, -⟩ := hP2 rfl
          subst hv
          exact absurd h (finalize_empty _ _ _ _ _ _)
        · simp only [loop] at h
          obtain ⟨hv, hro⟩ := hP2 rfl
          subst hv
          have htrue : ([] : List BB).isEmpty = true := rfl
          rw [if_pos htrue] at h
          exact ih _ (c :: d :: rest2) [] gap
            (StInv_inseq _ [] goodHead_nil (fun _ => hro)) s m2 r2 h

theorem get_seq_nil (cat : Option Catalogue) (maxRL : Nat) (m : MachSt) :
    get_seq cat maxRL m [] = .ok (none, m, []) := rfl

theorem gets_safe (cat : Option Catalogue) (maxRL : Nat) :
    ∀ fuel (m : MachSt) (input : List Nat),
      (m.state = .StartSeqId ∨ m.state = .StartSeq ∨ m.state = .Start ∨
        input = []) →
      ∀ s ∈ gets cat maxRL fuel m input, goodFirst s := by
  intro fuel
  induction fuel with
  | zero =>
    intro m input hb s hs
    simp [gets] at hs
  | succ fuel ih =>
    intro m input hb s hs
    cases hq : get_seq cat maxRL m input with
    | error e =>
      simp only [gets, hq] at hs
      exact absurd hs (List.not_mem_nil s)
    | ok tr =>
      obtain ⟨o, m2, r2⟩ := tr
      cases o with
      | none =>
        simp only [gets, hq] at hs
        exact absurd hs (List.not_mem_nil s)
      | some sq =>
        simp only [gets, hq] at hs
        have hinv : StInv m.state input ([] : List BB) := by
          rcases hb with hb | hb | hb | hb
          · rw [hb]
            exact StInv_pre _ _ (by simp [preSeqStates])
          · rw [hb]
            exact StInv_pre _ _ (by simp [preSeqStates])
          · rw [hb]
            exact StInv_pre _ _ (by simp [preSeqStates])
          · rw [hb] at hq
            rw [get_seq_nil] at hq
            simp at hq
        have hsafe := loop_safe cat maxRL (2 * input.length + 2) m input
          [] 0 hinv sq m2 r2 hq
        rcases List.mem_cons.1 hs with rfl | hs2
        · exact hsafe.1
        · refine ih m2 r2 ?_ s hs2
          rcases hsafe.2 with hb2 | hb2 | hb2
          · exact Or.inl hb2
          · exact Or.inr (Or.inl hb2)
          · exact Or.inr (Or.inr (Or.inr hb2))

/-- C2 (amended): for every input byte stream, every maximum read length and
every (or no) region catalogue, every Seq the reader yields is non-empty and
its first element sits at a position whose underlying input base is not a
gap; the stored first element is either that base (position tagged on
target) or the substituted Base::N.  The original claim fails in both
directions, as the counterexample shows: the stored first element can be the
gap Base::N (off-target or no-catalogue substitution), and for the last
element even the underlying input base can be a gap (the gap counter misses
one increment when a newline splits a trailing gap run). -/
theorem c2_reader_seq_first_element (cat : Option Catalogue) (maxRL : Nat)
    (input : List Nat) (s : List BB)
    (hs : s ∈ reader_seqs cat maxRL input) :
    ∃ p, s.head? = some p ∧ p.2.is_gap = false ∧
      (p.1 = p.2 ∨ p.1 = Base.N) :=
  gets_safe cat maxRL (input.length + 1) MachSt.init input
    (Or.inr (Or.inr (Or.inl rfl))) s hs

/-- C2 witness: the amended head property evaluated on the counterexample
sequence itself. -/
theorem c2_reader_seq_first_element_witness :
    ∃ p, ([(Base.N, Base.A), (Base.N, Base.N)] : List BB).head? = some p ∧
      p.2.is_gap = false ∧ (p.1 = p.2 ∨ p.1 = Base.N) :=
  c2_reader_seq_first_element none 4 c2_input
    [(Base.N, Base.A), (Base.N, Base.N)] (by decide)

/-! ## Theorems for claim C3 -/

/-- The index state after adding k-mer 0 with region tag 1 to a fresh
KmerWork over one target and a u64 slot type. -/
def c3_s1 : KmerWork :=
  { kmers := [(0, 2)]
    target_unique_count := [1]
    max_region := 2 ^ 63 - 1
    on_target_unique := 1
    off_target_unique := 0
    non_unique := 0 }

/-- The state after a second identical add_kmer call: the entry gains the
non-unique bit and the unique counters move to non_unique. -/
def c3_s2 : KmerWork :=
  { kmers := [(0, 3)]
    target_unique_count := [0]
    max_region := 2 ^ 63 - 1
    on_target_unique := 0
    off_target_unique := 0
    non_unique := 1 }

/-- C3 counterexample: add_kmer is not idempotent on duplicates.  After
adding k-mer 0 with region tag 1, a second call with the same k-mer and the
same region tag changes the entry (2 becomes 3) and the counters
(on_target_unique 1 becomes 0, non_unique 0 becomes 1, the per-target unique
count drops). -/
theorem c3_add_kmer_not_idempotent :
    KmerWork.add_kmer (KmerWork.new 1 8) 0 1 = some c3_s1 ∧
    KmerWork.add_kmer c3_s1 0 1 = some c3_s2 ∧
    c3_s2 ≠ c3_s1 := by
  decide

/-- C3 (amended): add_kmer is a no-op only once the entry carries the
non-unique bit: for every state, if the stored value for the k-mer has its
low bit set, then add_kmer with any admissible region tag returns the state
unchanged.  (A second call on a still-unique entry instead demotes it to
non-unique, as the counterexample shows.) -/
theorem c3_add_kmer_noop_once_nonunique (s : KmerWork) (kmer r p : Nat)
    (hr : ¬ r > s.max_region) (hp : s.kmers.lookup kmer = some p)
    (hodd : p &&& 1 = 1) :
    s.add_kmer kmer r = some s := by
  simp only [KmerWork.add_kmer, if_neg hr, hp]
  simp [hodd]

/-- C3 witness: a third call on the already-non-unique entry of c3_s2 leaves
the state untouched. -/
theorem c3_add_kmer_noop_once_nonunique_witness :
    KmerWork.add_kmer c3_s2 0 1 = some c3_s2 :=
  c3_add_kmer_noop_once_nonunique c3_s2 0 1 3 (by decide) (by decide)
    (by decide)

/-! ## Theorems for claim C5 -/

theorem decode_base_snd (b : Base) :
    (decode_base b).2 = if b.is_gap then 0 else 1 := by
  cases b <;> rfl

theorem add_base_keeps_valid_mask (s : KmerBuilder) (b : Base)
    (t : Option Nat) : (s.add_base b t).valid_mask = s.valid_mask := rfl

theorem foldl_keeps_valid_mask (l : List (Base × Option Nat)) :
    ∀ s : KmerBuilder,
      (l.foldl (fun s p => s.add_base p.1 p.2) s).valid_mask = s.valid_mask := by
  induction l with
  | nil => intro s; rfl
  | cons p t ih => intro s; simpa using ih (s.add_base p.1 p.2)

theorem build_from_valid_mask (l : List (Base × Option Nat)) :
    (build_from l).valid_mask = 2 ^ 16 - 1 := by
  rw [build_from, foldl_keeps_valid_mask]
  rfl

theorem valid_step (s : KmerBuilder) (b : Base) (t : Option Nat)
    (hm : s.valid_mask = 2 ^ 16 - 1) :
    (s.add_base b t).valid =
      2 * (s.valid % 2 ^ 15) + (if b.is_gap then 0 else 1) := by
  have h1 : (s.add_base b t).valid =
      ((s.valid <<< 1) &&& s.valid_mask) ||| (decode_base b).2 := rfl
  rw [h1, hm, decode_base_snd, Nat.shiftLeft_eq]
  have h2 : s.valid * 2 ^ 1 &&& 2 ^ 16 - 1 = s.valid * 2 % 2 ^ 16 := by
    rw [Nat.and_pow_two_sub_one_eq_mod]
    norm_num
  rw [h2]
  have h3 : s.valid * 2 % 2 ^ 16 = 2 * (s.valid % 2 ^ 15) := by
    rw [Nat.mul_comm s.valid 2,
        show (2 : Nat) ^ 16 = 2 * 2 ^ 15 from by norm_num,
        Nat.mul_mod_mul_left]
  rw [h3]
  have hb2 : (if b.is_gap then 0 else 1 : Nat) < 2 ^ 1 := by
    split <;> norm_num
  have h4 := Nat.mul_add_lt_is_or hb2 (s.valid % 2 ^ 15)
  have h5 : (2 : Nat) * (s.valid % 2 ^ 15) = 2 ^ 1 * (s.valid % 2 ^ 15) := by
    norm_num
  rw [h5, ← h4]

theorem build_from_append (l : List (Base × Option Nat))
    (p : Base × Option Nat) :
    build_from (l ++ [p]) = (build_from l).add_base p.1 p.2 := by
  simp [build_from]

theorem mod_double_step (w bit q : Nat) (hq : 0 < q) (hbit : bit ≤ 1) :
    (2 * w + bit) % (2 * q) = 2 * (w % q) + bit := by
  have hw := Nat.div_add_mod w q
  have hlt : 2 * (w % q) + bit < 2 * q := by
    have := Nat.mod_lt w hq
    omega
  have hdec : 2 * w + bit = (2 * (w % q) + bit) + (w / q) * (2 * q) := by
    calc 2 * w + bit = 2 * (q * (w / q) + w % q) + bit := by
          rw [Nat.div_add_mod]
    _ = (2 * (w % q) + bit) + (w / q) * (2 * q) := by ring
  rw [hdec, Nat.add_mul_mod_self_right, Nat.mod_eq_of_lt hlt]

/-- The validity word of a builder fed with the list l agrees, modulo 2 to
the j, with the all-ones pattern exactly when the last j bases of l exist
and are all non-gap. -/
theorem valid_char (l : List (Base × Option Nat)) :
    ∀ j, j ≤ 16 →
      ((build_from l).valid % 2 ^ j = 2 ^ j - 1 ↔
        (j ≤ l.length ∧ ∀ p ∈ l.reverse.take j, p.1.is_gap = false)) := by
  induction l using List.reverseRecOn with
  | nil =>
    intro j hj
    have hv : (build_from []).valid = 0 := rfl
    rw [hv]
    constructor
    · intro h
      have hp : (2 : Nat) ^ j - 1 = 0 := by
        have := Nat.zero_mod (2 ^ j)
        omega
      have : j = 0 := by
        by_contra hne
        have : (2 : Nat) ^ j ≥ 2 := by
          calc (2 : Nat) ^ 1 ≤ 2 ^ j := Nat.pow_le_pow_right (by norm_num) (by omega)
          _ = 2 ^ j := rfl
        omega
      subst this
      simp
    · rintro ⟨hlen, -⟩
      simp at hlen
      subst hlen
      simp
  | append_singleton l p ih =>
    intro j hj
    have hstep : (build_from (l ++ [p])).valid =
        2 * ((build_from l).valid % 2 ^ 15) + (if p.1.is_gap then 0 else 1) := by
      rw [build_from_append]
      exact valid_step _ _ _ (build_from_valid_mask l)
    rw [hstep]
    match j with
    | 0 =>
      simp [Nat.mod_one]
    | jj + 1 =>
      have hjj : jj ≤ 15 := by omega
      have hq : (2 : Nat) ^ (jj + 1) = 2 * 2 ^ jj := by ring
      have hbit : (if p.1.is_gap then 0 else 1 : Nat) ≤ 1 := by split <;> omega
      have hmm : (build_from l).valid % 2 ^ 15 % 2 ^ jj =
          (build_from l).valid % 2 ^ jj := by
        rw [Nat.mod_mod_of_dvd]
        exact pow_dvd_pow 2 hjj
      rw [hq, mod_double_step _ _ _ (Nat.pos_pow_of_pos jj (by norm_num)) hbit,
          hmm]
      have hqpos : (0 : Nat) < 2 ^ jj := Nat.pos_pow_of_pos jj (by norm_num)
      have hmlt : (build_from l).valid % 2 ^ jj < 2 ^ jj :=
        Nat.mod_lt _ hqpos
      have hrev : (l ++ [p]).reverse.take (jj + 1) =
          p :: l.reverse.take jj := by
        rw [List.reverse_append]
        rfl
      rw [hrev]
      have ihj := ih jj (by omega)
      constructor
      · intro h
        have hbits : (build_from l).valid % 2 ^ jj = 2 ^ jj - 1 ∧
            (if p.1.is_gap then 0 else 1 : Nat) = 1 := by
          constructor <;> omega
        obtain ⟨h1, h2⟩ := hbits
        have hgap : p.1.is_gap = false := by
          by_contra hc
          simp at hc
          rw [hc] at h2
          simp at h2
        obtain ⟨hlen, hall⟩ := ihj.1 h1
        refine ⟨by simp; omega, ?_⟩
        intro q hq2
        rcases List.mem_cons.1 hq2 with hq3 | hq3
        · subst hq3; exact hgap
        · exact hall q hq3
      · rintro ⟨hlen, hall⟩
        have hgap : p.1.is_gap = false := hall p (List.mem_cons_self p _)
        have hlen2 : jj ≤ l.length := by simp at hlen; omega
        have hall2 : ∀ q ∈ l.reverse.take jj, q.1.is_gap = false := by
          intro q hq2
          exact hall q (List.mem_cons_of_mem p hq2)
        have h1 := ihj.2 ⟨hlen2, hall2⟩
        rw [hgap]
        simp only [Bool.false_eq_true, if_false]
        omega

theorem build_valid_lt (l : List (Base × Option Nat)) :
    (build_from l).valid < 2 ^ 16 := by
  induction l using List.reverseRecOn with
  | nil => norm_num [build_from, KmerBuilder.new]
  | append_singleton l p ih =>
    have hstep : (build_from (l ++ [p])).valid =
        2 * ((build_from l).valid % 2 ^ 15) + (if p.1.is_gap then 0 else 1) := by
      rw [build_from_append]
      exact valid_step _ _ _ (build_from_valid_mask l)
    rw [hstep]
    have := Nat.mod_lt (build_from l).valid
      (show (0:Nat) < 2 ^ 15 from by norm_num)
    have hbit : (if p.1.is_gap then 0 else 1 : Nat) ≤ 1 := by split <;> omega
    have h215 : (2:Nat) ^ 15 = 32768 := by norm_num
    have h216 : (2:Nat) ^ 16 = 65536 := by norm_num
    omega

/-- C5: the k-mer builder update is exactly as the specification states it
(add_base agrees pointwise with the formula-level step add_base_spec), and
kmers() succeeds exactly when the builder has been fed at least KMER_LENGTH
bases and the last KMER_LENGTH of them are all non-gap. -/
theorem c5_add_base_and_kmers :
    (∀ (s : KmerBuilder) (b : Base) (t : Option Nat),
        s.add_base b t = add_base_spec s b t) ∧
    (∀ l : List (Base × Option Nat),
        (build_from l).kmers.isSome ↔
          (16 ≤ l.length ∧ ∀ p ∈ l.reverse.take 16, p.1.is_gap = false)) := by
  constructor
  · intro s b t
    cases b <;> rfl
  · intro l
    have hmask := build_from_valid_mask l
    have hlt := build_valid_lt l
    have hchar := valid_char l 16 (by omega)
    have hmod : (build_from l).valid % 2 ^ 16 = (build_from l).valid :=
      Nat.mod_eq_of_lt hlt
    rw [hmod] at hchar
    constructor
    · intro h
      apply hchar.1
      simp only [KmerBuilder.kmers] at h
      split at h
      · next heq =>
        rw [heq, hmask]
      · simp at h
    · intro h
      have := hchar.2 h
      simp only [KmerBuilder.kmers]
      rw [this, hmask]
      simp

/-- C10 witness: the one-on-target-hit vector [5,0,0,0,0,0,0,0] and the
two-hit vector [5,7,0,0,0,0,0,0] both receive type code 1. -/
theorem c10_type_code_collision_witness :
    (KmerType.from_kmer_vec [5, 0, 0, 0, 0, 0, 0, 0] = .UniqueOnTarget ∧
      (KmerType.from_kmer_vec [5, 0, 0, 0, 0, 0, 0, 0]).type_code = 1) ∧
    (KmerType.from_kmer_vec [5, 7, 0, 0, 0, 0, 0, 0] = .LowMultiMap 2 ∧
      (KmerType.from_kmer_vec [5, 7, 0, 0, 0, 0, 0, 0]).type_code = 1) :=
  ⟨(c10_type_code_collision [5, 0, 0, 0, 0, 0, 0, 0] (by decide)).1
      (by decide),
   (c10_type_code_collision [5, 7, 0, 0, 0, 0, 0, 0] (by decide)).2
      (by decide)⟩

end ARGC
